import Mathlib

/-!
# Verification of the connected-component labeling core
# (Source/projects/ImageProcessing/connectedComponents.h)

Shallow embedding of the `createdataset` union-find `Set` class and of the
`findConnectedComponents3d` volume labeler, together with proofs of the
specified properties.

Modelling conventions:
* A `Set<U>` node is a record of its four fields.  The pointer-linked forest
  is embedded as an arena `Forest U : Nat → Set U`: node addresses become
  `Nat` indices and the `parent_` pointer becomes `Option Nat`
  (`none` = null pointer = root).
* `RANK_TYPE` is `unsigned short`; ranks are `Nat` with the overflow check
  made explicit against `RANK_MAX = 65535`, exactly as in the source.
* The recursive `find` walks a pointer chain of statically unknown length, so
  the embedding takes an explicit fuel argument; every theorem either supplies
  a proof that the fuel dominates the chain length (so the fueled function
  agrees with the C++ recursion) or uses `FUEL = RANK_MAX + 1`, which
  dominates every chain length in any state satisfying the union-by-rank
  invariant `WF`.
* `throw` in `unite` is modelled by returning the mutated forest together
  with an error flag: the C++ exception propagates but the heap mutations
  performed before the `throw` persist, and the flag records that the
  exception was raised.
-/

set_option autoImplicit false

namespace createdataset

/-- One `Set<U>` node (`class Set` in connectedComponents.h):
`rank_ : RANK_TYPE (unsigned short)`, `hasLabel_ : bool`, `label_ : U`,
`parent_ : Set*` (null represented by `none`). -/
structure Set (U : Type) where
  rank_ : Nat
  hasLabel_ : Bool
  label_ : U
  parent_ : Option Nat
deriving DecidableEq, Repr

/-- `std::numeric_limits<unsigned short>::max()`, the maximum of `RANK_TYPE`. -/
def RANK_MAX : Nat := 65535

/-- The union-find forest: node state per arena index. -/
def Forest (U : Type) := Nat → Set U

/-- Pointwise store update of the arena (one heap write). -/
def upd {U : Type} (f : Forest U) (x : Nat) (s : Set U) : Forest U :=
  fun i => if i = x then s else f i

/-- The `Set()` constructor: `rank_(0), parent_(0), label_(UNITIALIZED), hasLabel_(false)`
where `UNITIALIZED = U(0)`; `u0` stands for `U(0)`. -/
def mkSet {U : Type} (u0 : U) : Set U :=
  { rank_ := 0, hasLabel_ := false, label_ := u0, parent_ := none }

/-- A node is a root iff its parent pointer is null. -/
def isRoot {U : Type} (f : Forest U) (x : Nat) : Prop := (f x).parent_ = none

instance {U : Type} (f : Forest U) (x : Nat) : Decidable (isRoot f x) := by
  unfold isRoot; infer_instance

/-- `Set::find()` with explicit fuel `k`:
```
if(parent_ == 0) return this;
else { parent_ = parent_->find(); return parent_; }
```
Returns the forest after the path-compression writes, and the returned node.
When the fuel is exhausted the current node is returned unchanged (this case
is unreachable whenever the fuel dominates the parent-chain length). -/
def find {U : Type} : Nat → Forest U → Nat → Forest U × Nat
  | 0, f, x => (f, x)
  | k + 1, f, x =>
    match (f x).parent_ with
    | none => (f, x)
    | some p =>
      let r := find k f p
      (upd r.1 x { r.1 x with parent_ := some r.2 }, r.2)

/-- The nodes whose `parent_` field `find` rewrites: the strict parent chain
walked from `x`, excluding the root where the walk stops. -/
def pathTo {U : Type} : Nat → Forest U → Nat → List Nat
  | 0, _, _ => []
  | k + 1, f, x =>
    match (f x).parent_ with
    | none => []
    | some p => x :: pathTo k f p

/-- `Set::unite(Set* x, Set* y)` with explicit fuel for the two `find` calls:
```
Set* xRoot = x->find();
Set* yRoot = y->find();
if(xRoot->rank_ > yRoot->rank_) yRoot->parent_ = xRoot;
else if(xRoot->rank_ < yRoot->rank_) xRoot->parent_ = yRoot;
else if(xRoot != yRoot) {
  yRoot->parent_ = xRoot;
  if (xRoot->rank_ == std::numeric_limits<RANK_TYPE>::max())
    throw std::exception("Connected components graph overflow.");
  xRoot->rank_++;
}
```
The returned `Bool` is `true` iff the overflow exception was thrown; the
returned forest is the heap state at that point (the attach of `yRoot` under
`xRoot` precedes the throw, the rank increment follows the check).
`uniteCore` is the body after the two root look-ups: the rank comparison
cascade on the state `f2` left by the `find` calls, with the two roots
`xRoot` and `yRoot` in hand; `unite` wires the `find` calls to it. -/
def uniteCore {U : Type} (f2 : Forest U) (xRoot yRoot : Nat) : Forest U × Bool :=
  if (f2 xRoot).rank_ > (f2 yRoot).rank_ then
    (upd f2 yRoot { f2 yRoot with parent_ := some xRoot }, false)
  else if (f2 xRoot).rank_ < (f2 yRoot).rank_ then
    (upd f2 xRoot { f2 xRoot with parent_ := some yRoot }, false)
  else if xRoot ≠ yRoot then
    let f3 := upd f2 yRoot { f2 yRoot with parent_ := some xRoot }
    if (f3 xRoot).rank_ = RANK_MAX then
      (f3, true)
    else
      (upd f3 xRoot { f3 xRoot with rank_ := (f3 xRoot).rank_ + 1 }, false)
  else
    (f2, false)

def unite {U : Type} (k : Nat) (f : Forest U) (x y : Nat) : Forest U × Bool :=
  let fx := find k f x
  let fy := find k fx.1 y
  uniteCore fy.1 fx.2 fy.2

/-- Fuel that dominates every parent-chain length in a `WF` forest:
ranks increase strictly along parent links and are at most `RANK_MAX`,
so chains have at most `RANK_MAX` links. -/
def FUEL : Nat := RANK_MAX + 1

/-! ## Parent-path predicates -/

/-- `PathD f x y d`: starting at node `x` and following `parent_` pointers
`d` times reaches node `y`. -/
inductive PathD {U : Type} (f : Forest U) : Nat → Nat → Nat → Prop where
  | refl (x : Nat) : PathD f x x 0
  | step {x p y d : Nat} : (f x).parent_ = some p → PathD f p y d → PathD f x y (d + 1)

/-- `RootedAt f x r`: the parent walk from `x` terminates at the root `r`. -/
def RootedAt {U : Type} (f : Forest U) (x r : Nat) : Prop :=
  ∃ d, PathD f x r d ∧ isRoot f r

/-- Two nodes lie in the same component: their parent walks reach a common root. -/
def sameRoot {U : Type} (f : Forest U) (x y : Nat) : Prop :=
  ∃ r, RootedAt f x r ∧ RootedAt f y r

/-! ## The union-by-rank well-formedness invariant -/

/-- Well-formed forest over arena indices `< n`: ranks are representable in
`RANK_TYPE`, parent links stay inside the arena, and ranks increase strictly
along parent links (the union-by-rank shape invariant). -/
def WF {U : Type} (n : Nat) (f : Forest U) : Prop :=
  ∀ x, x < n → (f x).rank_ ≤ RANK_MAX ∧
    ((f x).parent_ = none ∨
      ∃ p, (f x).parent_ = some p ∧ p < n ∧ (f x).rank_ < (f p).rank_)

/-! ## Client operation sequences -/

/-- The initial arena: one default-constructed node per position (every
node a rank-0 root with no parent and no label). -/
def initF {U : Type} (u0 : U) : Forest U := fun _ => mkSet u0

/-- One client operation on the forest: a `find` on node `x` or a
`unite` of nodes `x` and `y`.  Operations run with fuel `FUEL`, which
dominates every walk length in a well-formed state, so the fueled functions
agree with the C++ recursion on all reachable states. -/
inductive OpU where
  | findOp (x : Nat)
  | uniteOp (x y : Nat)
deriving DecidableEq, Repr

def runOp {U : Type} (f : Forest U) : OpU → Forest U
  | OpU.findOp x => (find FUEL f x).1
  | OpU.uniteOp x y => (unite FUEL f x y).1

def runOps {U : Type} (f : Forest U) : List OpU → Forest U
  | [] => f
  | op :: l => runOps (runOp f op) l

/-- All operand indices of the sequence lie below `n`. -/
def opsInB (n : Nat) : List OpU → Bool
  | [] => true
  | OpU.findOp x :: l => decide (x < n) && opsInB n l
  | OpU.uniteOp x y :: l => decide (x < n) && decide (y < n) && opsInB n l

/-- Every `unite` of the sequence completes without throwing the overflow
exception (evaluated against the states the sequence actually reaches). -/
def opsOkB {U : Type} : Forest U → List OpU → Bool
  | _, [] => true
  | f, op :: l =>
    (match op with
     | OpU.findOp _ => true
     | OpU.uniteOp x y => !(unite FUEL f x y).2) && opsOkB (runOp f op) l

/-! ## Concrete forests for witnesses and counterexamples -/

/-- Three-node chain `2 → 1 → 0` (node 0 is the root). -/
def cexChain : Forest Nat := fun i =>
  if i = 1 then { mkSet 0 with parent_ := some 0 }
  else if i = 2 then { mkSet 0 with parent_ := some 1 }
  else mkSet 0

/-- Nodes 0 and 1 are distinct roots whose rank is already `RANK_MAX`
(the state in which an equal-rank union must overflow the rank counter). -/
def cexMax : Forest Nat := fun i =>
  if i < 2 then { mkSet 0 with rank_ := RANK_MAX } else mkSet 0

/-! ## The volume labeler: `findConnectedComponents3d`

The visible part of the source (up to the scan loop heads) fixes the arena
allocation, the face-connectivity offset tables

```
const int N = 3; // back, left, up
const int du[] = { 0, -1,  0 };
const int dv[] = { 0,  0, -1 };
const int dw[] = { -1, 0,  0 };
```

and the loop order `for w { for v { ... } }` with arena indexing
`components[w*width*height + v*width]` (+`u` within a row).  The strided
buffers `(T*)((unsigned char*)buffer + w*leap + v*stride)` are embedded as
functions from voxel coordinates; the loop nest enumerates voxels in
lexicographic `(w, v, u)` order, which is increasing arena-index order. -/

/-- A voxel coordinate `(u, v, w)`: column, row, slice. -/
def Vox : Type := Nat × Nat × Nat

instance : DecidableEq Vox :=
  inferInstanceAs (DecidableEq (Nat × Nat × Nat))

/-- Arena index of a voxel: `w*width*height + v*width + u`, exactly the
source's `components[w*width*height + v*width]` plus the column offset. -/
def lin (width height : Nat) (c : Vox) : Nat :=
  c.2.2 * width * height + c.2.1 * width + c.1

/-- Voxel coordinate of an arena index (inverse of `lin` on the volume). -/
def unlin (width height : Nat) (i : Nat) : Vox :=
  (i % width, i / width % height, i / (width * height))

def inBounds (width height depth : Nat) (c : Vox) : Prop :=
  c.1 < width ∧ c.2.1 < height ∧ c.2.2 < depth

instance (width height depth : Nat) (c : Vox) :
    Decidable (inBounds width height depth c) := by
  unfold inBounds; infer_instance

/-- The already-visited face neighbors of a voxel, in the source's offset
order `back (w-1), left (u-1), up (v-1)`, with the lower-bound checks that
keep them inside the volume. -/
def neighborsOf (c : Vox) : List Vox :=
  (if 0 < c.2.2 then [(c.1, c.2.1, c.2.2 - 1)] else []) ++
  (if 0 < c.1 then [(c.1 - 1, c.2.1, c.2.2)] else []) ++
  (if 0 < c.2.1 then [(c.1, c.2.1 - 1, c.2.2)] else [])

/-- Face adjacency: the coordinates differ by exactly one in exactly one
axis. -/
def faceAdj (a b : Vox) : Prop :=
  (a.2.1 = b.2.1 ∧ a.2.2 = b.2.2 ∧ (a.1 + 1 = b.1 ∨ b.1 + 1 = a.1)) ∨
  (a.1 = b.1 ∧ a.2.2 = b.2.2 ∧ (a.2.1 + 1 = b.2.1 ∨ b.2.1 + 1 = a.2.1)) ∨
  (a.1 = b.1 ∧ a.2.1 = b.2.1 ∧ (a.2.2 + 1 = b.2.2 ∨ b.2.2 + 1 = a.2.2))

instance (a b : Vox) : Decidable (faceAdj a b) := by
  unfold faceAdj; infer_instance

/-- Connectivity through voxels satisfying `P`: reflexive-transitive closure
of face adjacency restricted to `P`-voxels. -/
inductive Conn (P : Vox → Prop) : Vox → Vox → Prop where
  | refl {a : Vox} : P a → Conn P a a
  | step {a b c : Vox} : Conn P a b → faceAdj b c → P c → Conn P a c

/-- The scan order of the three nested loops: all voxels in lexicographic
`(w, v, u)` order. -/
def voxList (width height depth : Nat) : List Vox :=
  (List.range depth).flatMap (fun w =>
    (List.range height).flatMap (fun v =>
      (List.range width).map (fun u => (u, v, w))))

/-- `struct ComponentStatistics` (the label type parameter `U` of the C++
template does not occur in its fields and is dropped):
`unsigned long pixelCount_; T inputLabel_;`. -/
structure ComponentStatistics (T : Type) where
  pixelCount_ : Nat
  inputLabel_ : T
deriving DecidableEq, Repr

/-- Little-endian value of a byte list. -/
def leVal : List Nat → Nat
  | [] => 0
  | b :: rest => b % 256 + 256 * leVal rest

/-- A list of `k` zero bytes. -/
def zeros (k : Nat) : List Nat := List.replicate k 0

/-- Decoding of one `Set<U>` node from the bytes of its in-memory
representation (64-bit target, little-endian, `U` an unsigned integral label
type modelled as `Nat`): `rank_` is an `unsigned short` read from its bytes,
`hasLabel_` a `bool` (nonzero byte = `true`), `label_` the label value read
from its bytes, and `parent_` a pointer that is null iff its address value
is zero.  Byte counts of the fields are arbitrary parameters so that the
decode covers any padding/width layout. -/
def decodeSet (rankBytes : List Nat) (hasLabelByte : Nat) (labelBytes : List Nat)
    (parentBytes : List Nat) : Set Nat :=
  { rank_ := leVal rankBytes % (RANK_MAX + 1),
    hasLabel_ := if hasLabelByte = 0 then false else true,
    label_ := leVal labelBytes,
    parent_ := if leVal parentBytes = 0 then none else some (leVal parentBytes) }

/-- One arena node of the zero-filled allocation
`std::vector<unsigned char> components_(width*height*depth*sizeof(Set<U>), 0)`
reinterpreted as `Set<U>*`: every field decoded from zero bytes
(2 rank bytes, zero bool byte, 8 label bytes, 8 pointer bytes on the
64-bit target). -/
def zeroNode : Set Nat := decodeSet (zeros 2) 0 (zeros 8) (zeros 8)

/-- `unite` with the C++ exception made explicit: the overflow throw aborts
with the message of the source's `std::exception`, leaving the already
performed heap writes in place only insofar as the caller never sees the
forest again (the labeler lets the exception propagate). -/
def uniteE (f : Forest Nat) (x y : Nat) : Except String (Forest Nat) :=
  if (unite FUEL f x y).2 = true then
    Except.error "Connected components graph overflow."
  else Except.ok (unite FUEL f x y).1

/-- Modelled from the spec: the body of the scan loop of
`findConnectedComponents3d` (the part of connectedComponents.h after line
159, missing from src/).  Per spec §4.2 step 2: a background voxel performs
no union; a foreground voxel is united with each of its already-visited
(back/left/up) face neighbors that is also foreground. -/
def uniteNeighbors {T : Type} [DecidableEq T] (width height : Nat) (inp : Vox → T)
    (bg : T) (c : Vox) : Forest Nat → List Vox → Except String (Forest Nat)
  | f, [] => Except.ok f
  | f, nb :: rest =>
    if inp nb ≠ bg then
      match uniteE f (lin width height c) (lin width height nb) with
      | Except.error e => Except.error e
      | Except.ok f' => uniteNeighbors width height inp bg c f' rest
    else uniteNeighbors width height inp bg c f rest

/-- Modelled from the spec: processing of one voxel during the scan. -/
def scanVoxel {T : Type} [DecidableEq T] (width height : Nat) (inp : Vox → T)
    (bg : T) (f : Forest Nat) (c : Vox) : Except String (Forest Nat) :=
  if inp c = bg then Except.ok f
  else uniteNeighbors width height inp bg c f (neighborsOf c)

/-- The scan pass: fold of `scanVoxel` over the voxels in scan order,
aborting if a union throws. -/
def scanFold {T : Type} [DecidableEq T] (width height : Nat) (inp : Vox → T) (bg : T) :
    Forest Nat → List Vox → Except String (Forest Nat)
  | f, [] => Except.ok f
  | f, c :: rest =>
    match scanVoxel width height inp bg f c with
    | Except.error e => Except.error e
    | Except.ok f' => scanFold width height inp bg f' rest

/-- State of the resolution pass: the forest (compressed further by its
`find` calls and carrying the lazily assigned root labels), the output
label buffer, and the statistics list built so far. -/
structure ResState (T : Type) where
  forest : Forest Nat
  out : Vox → Nat
  stats : List (ComponentStatistics T)

/-- Increment `pixelCount_` of the record at position `i`. -/
def bumpAt {T : Type} : Nat → List (ComponentStatistics T) → List (ComponentStatistics T)
  | _, [] => []
  | 0, s :: rest => { s with pixelCount_ := s.pixelCount_ + 1 } :: rest
  | i + 1, s :: rest => s :: bumpAt i rest

/-- One write into the output label buffer. -/
def writeOut (out : Vox → Nat) (c : Vox) (lab : Nat) : Vox → Nat :=
  fun c' => if c' = c then lab else out c'

/-- Modelled from the spec: the body of the resolution pass of
`findConnectedComponents3d` (missing from src/).  Per spec §4.2 step 3: a
background voxel gets `backgroundLabel`; a foreground voxel finds its root;
an unlabeled root receives the next unused label value (labels are issued
as 1, 2, … in discovery order, per spec §8 Scenario A) and a fresh
statistics record `{pixelCount = 0, inputValue = current voxel}` is pushed;
then the component's pixel count is incremented and the label written. -/
def resolveVoxel {T : Type} [DecidableEq T] (width height : Nat) (inp : Vox → T)
    (bg : T) (backgroundLabel : Nat) (s : ResState T) (c : Vox) : ResState T :=
  if inp c = bg then
    { s with out := writeOut s.out c backgroundLabel }
  else
    let fr := find FUEL s.forest (lin width height c)
    if (fr.1 fr.2).hasLabel_ then
      { forest := fr.1,
        out := writeOut s.out c (fr.1 fr.2).label_,
        stats := bumpAt ((fr.1 fr.2).label_ - 1) s.stats }
    else
      { forest := upd fr.1 fr.2
          { fr.1 fr.2 with hasLabel_ := true, label_ := s.stats.length + 1 },
        out := writeOut s.out c (s.stats.length + 1),
        stats := bumpAt s.stats.length
          (s.stats ++ [{ pixelCount_ := 0, inputLabel_ := inp c }]) }

/-- The resolution pass: fold of `resolveVoxel` over the voxels in the same
linear order as the scan. -/
def resolveFold {T : Type} [DecidableEq T] (width height : Nat) (inp : Vox → T)
    (bg : T) (backgroundLabel : Nat) : ResState T → List Vox → ResState T
  | s, [] => s
  | s, c :: rest =>
    resolveFold width height inp bg backgroundLabel
      (resolveVoxel width height inp bg backgroundLabel s c) rest

/-- `findConnectedComponents3d`, assembled from the visible entry (the
zero-filled arena allocation, the connectivity tables and the loop order)
and the spec-modelled scan and resolution passes.  The strided input and
output buffers are embedded as coordinate-indexed functions (`out0` is the
caller's output buffer contents); the overflow exception surfaces as
`Except.error`. -/
def findConnectedComponents3d {T : Type} [DecidableEq T] (width height depth : Nat)
    (inp : Vox → T) (backgroundColor : T) (out0 : Vox → Nat)
    (backgroundLabel : Nat) :
    Except String ((Vox → Nat) × List (ComponentStatistics T)) :=
  match scanFold width height inp backgroundColor (fun _ => zeroNode)
      (voxList width height depth) with
  | Except.error e => Except.error e
  | Except.ok f =>
    let s := resolveFold width height inp backgroundColor backgroundLabel
      { forest := f, out := out0, stats := [] } (voxList width height depth)
    Except.ok (s.out, s.stats)

/-- Did the call complete without throwing? -/
def ccOk {T : Type} (r : Except String ((Vox → Nat) × List (ComponentStatistics T))) :
    Bool :=
  match r with
  | Except.ok _ => true
  | Except.error _ => false

/-- Output label buffer of a successful call. -/
def ccOut {T : Type} (r : Except String ((Vox → Nat) × List (ComponentStatistics T))) :
    Vox → Nat :=
  match r with
  | Except.ok p => p.1
  | Except.error _ => fun _ => 0

/-- Statistics list of a successful call. -/
def ccStats {T : Type} (r : Except String ((Vox → Nat) × List (ComponentStatistics T))) :
    List (ComponentStatistics T) :=
  match r with
  | Except.ok p => p.2
  | Except.error _ => []

/-- Number of background voxels among the first `m` scan positions. -/
def bgCount {T : Type} [DecidableEq T] (width height : Nat) (inp : Vox → T) (bg : T) : Nat → Nat
  | 0 => 0
  | i + 1 => bgCount width height inp bg i +
      (if inp (unlin width height i) = bg then 1 else 0)

/-- Number of foreground voxels among the first `m` scan positions. -/
def fgCount {T : Type} [DecidableEq T] (width height : Nat) (inp : Vox → T) (bg : T) : Nat → Nat
  | 0 => 0
  | i + 1 => fgCount width height inp bg i +
      (if inp (unlin width height i) = bg then 0 else 1)

/-- Total `pixelCount_` of a statistics list. -/
def sumPix {T : Type} : List (ComponentStatistics T) → Nat
  | [] => 0
  | s :: rest => s.pixelCount_ + sumPix rest

/-- Foreground voxels of the volume (the vertices of the connectivity
graph of claim C1). -/
def fgP {T : Type} (width height depth : Nat) (inp : Vox → T) (bg : T) : Vox → Prop :=
  fun c => inBounds width height depth c ∧ inp c ≠ bg

instance {T : Type} [DecidableEq T] (width height depth : Nat) (inp : Vox → T)
    (bg : T) (c : Vox) : Decidable (fgP width height depth inp bg c) := by
  unfold fgP; infer_instance

/-- The scan invariant after having processed the first `m` voxels of the
scan order: the forest is well-formed, every merged pair of in-bounds voxels
is connected through processed foreground voxels, and every face-adjacent
pair of processed foreground voxels is already merged. -/
def ScanInv {T : Type} (w h d : Nat) (inp : Vox → T) (bg : T) (m : Nat)
    (f : Forest Nat) : Prop :=
  WF (w * h * d) f ∧
  (∀ a b : Vox, inBounds w h d a → inBounds w h d b →
    sameRoot f (lin w h a) (lin w h b) →
    a = b ∨ Conn (fun v => inBounds w h d v ∧ inp v ≠ bg ∧ lin w h v < m) a b) ∧
  (∀ a b : Vox, (inBounds w h d a ∧ inp a ≠ bg ∧ lin w h a < m) →
    (inBounds w h d b ∧ inp b ≠ bg ∧ lin w h b < m) →
    faceAdj a b → sameRoot f (lin w h a) (lin w h b))

/-! ## Resolution-pass invariant -/

/-- Invariant of the resolution pass after its first `m` voxels: the forest
still represents the scan components (compression and root labels aside),
labels are positive, at most the statistics length, held only by roots and
pairwise distinct, every processed voxel's output cell holds the background
label or its root's label, and the pixel counts total the processed
foreground voxels, each record counting at least one voxel. -/
def ResInv {T : Type} [DecidableEq T] (w h d : Nat) (inp : Vox → T) (bg : T)
    (bgl : Nat) (fscan : Forest Nat) (m : Nat) (s : ResState T) : Prop :=
  WF (w * h * d) s.forest ∧
  (∀ j r, RootedAt s.forest j r ↔ RootedAt fscan j r) ∧
  (∀ i, (s.forest i).hasLabel_ = true →
    isRoot s.forest i ∧ 1 ≤ (s.forest i).label_ ∧
    (s.forest i).label_ ≤ s.stats.length) ∧
  (∀ i j, (s.forest i).hasLabel_ = true → (s.forest j).hasLabel_ = true →
    (s.forest i).label_ = (s.forest j).label_ → i = j) ∧
  (∀ i, i < m → i < w * h * d →
    (inp (unlin w h i) = bg → s.out (unlin w h i) = bgl) ∧
    (inp (unlin w h i) ≠ bg → ∃ r, RootedAt fscan i r ∧
      (s.forest r).hasLabel_ = true ∧ s.out (unlin w h i) = (s.forest r).label_)) ∧
  sumPix s.stats = fgCount w h inp bg m ∧
  (∀ st ∈ s.stats, 1 ≤ st.pixelCount_)

namespace PathD

theorem compose {U : Type} {f : Forest U} {x y a : Nat}
    (h1 : PathD f x y a) : ∀ {z b : Nat}, PathD f y z b → PathD f x z (a + b) := by
  induction h1 with
  | refl => intro z b h2; simpa using h2
  | @step x p y d hp _ ih =>
    intro z b h2
    have hh := PathD.step hp (ih h2)
    have he : d + b + 1 = d + 1 + b := by omega
    rwa [he] at hh

end PathD

@[simp]
theorem upd_self {U : Type} (f : Forest U) (x : Nat) (s : Set U) : upd f x s x = s := by
  simp [upd]

theorem upd_other {U : Type} (f : Forest U) {x i : Nat} (s : Set U) (h : i ≠ x) :
    upd f x s i = f i := by
  simp [upd, h]

/-- The root reached from a node, and the length of the walk, are unique. -/
theorem rooted_unique {U : Type} {f : Forest U} {x r d : Nat}
    (h : PathD f x r d) (hr : isRoot f r) :
    ∀ {r' d' : Nat}, PathD f x r' d' → isRoot f r' → r = r' ∧ d = d' := by
  induction h with
  | refl =>
    intro r' d' h' _
    cases h' with
    | refl => exact ⟨rfl, rfl⟩
    | step hp _ => rw [isRoot] at hr; rw [hr] at hp; cases hp
  | @step x p y d hp _ ih =>
    intro r' d' h' hr'
    cases h' with
    | refl => rw [isRoot] at hr'; rw [hr'] at hp; cases hp
    | @step _ p' _ d2 hp' h2 =>
      rw [hp] at hp'
      cases hp'
      obtain ⟨h1, h2⟩ := ih hr h2 hr'
      exact ⟨h1, by omega⟩

/-- A parent walk that returns to its start has length zero (no cycles below a root). -/
theorem cycle_trivial {U : Type} {f : Forest U} {x r d t : Nat}
    (h : PathD f x r d) (hr : isRoot f r) (hc : PathD f x x t) : t = 0 := by
  have hcomp := hc.compose h
  have := rooted_unique h hr hcomp hr
  omega

/-- A walk starting at a root stays put. -/
theorem rootedAt_root {U : Type} {f : Forest U} {r s : Nat}
    (hr : isRoot f r) (h : RootedAt f r s) : s = r := by
  obtain ⟨d, hp, hs⟩ := h
  cases hp with
  | refl => rfl
  | step hp _ => rw [isRoot] at hr; rw [hr] at hp; cases hp

theorem RootedAt.prepend {U : Type} {f : Forest U} {j p s : Nat}
    (hj : (f j).parent_ = some p) (h : RootedAt f p s) : RootedAt f j s := by
  obtain ⟨d, hp, hs⟩ := h
  exact ⟨d + 1, PathD.step hj hp, hs⟩

/-- Walks only read the `parent_` field, so forests with identical parent maps
have identical walks. -/
theorem pathd_congr {U : Type} {f g : Forest U}
    (hpar : ∀ i, (g i).parent_ = (f i).parent_) {x y d : Nat}
    (h : PathD f x y d) : PathD g x y d := by
  induction h with
  | refl => exact PathD.refl _
  | @step x p y d hp _ ih => exact PathD.step (by rw [hpar]; exact hp) ih

theorem rootedAt_congr {U : Type} {f g : Forest U}
    (hpar : ∀ i, (g i).parent_ = (f i).parent_) {x r : Nat}
    (h : RootedAt f x r) : RootedAt g x r := by
  obtain ⟨d, hp, hs⟩ := h
  exact ⟨d, pathd_congr hpar hp, by rw [isRoot, hpar]; exact hs⟩

/-- Updating the store at a root does not disturb any walk: every node a walk
steps through has a non-null parent, hence differs from the root. -/
theorem pathd_upd_root {U : Type} {f : Forest U} {b : Nat} (hb : isRoot f b)
    (v : Set U) {x y d : Nat} (h : PathD f x y d) : PathD (upd f b v) x y d := by
  induction h with
  | refl => exact PathD.refl _
  | @step x p y d hp _ ih =>
    have hxb : x ≠ b := by
      intro he
      rw [he] at hp
      rw [isRoot] at hb
      rw [hb] at hp
      cases hp
    exact PathD.step (by rw [upd_other f v hxb]; exact hp) ih

theorem pathd_zero {U : Type} {f : Forest U} {x y : Nat} (h : PathD f x y 0) : y = x := by
  cases h; rfl

theorem pathd_from_root {U : Type} {f : Forest U} {r s t : Nat}
    (hr : isRoot f r) (h : PathD f r s t) : s = r ∧ t = 0 := by
  cases h with
  | refl => exact ⟨rfl, rfl⟩
  | step hp _ => rw [isRoot] at hr; rw [hr] at hp; cases hp

/-! ## Facts about the compression path `pathTo` -/

theorem pathTo_pathd {U : Type} : ∀ {k : Nat} {f : Forest U} {x j : Nat},
    j ∈ pathTo k f x → ∃ u, PathD f x j u := by
  intro k
  induction k with
  | zero => intro f x j h; simp [pathTo] at h
  | succ k ih =>
    intro f x j h
    cases hp : (f x).parent_ with
    | none => rw [pathTo, hp] at h; simp at h
    | some p =>
      rw [pathTo, hp] at h
      rcases List.mem_cons.mp h with h | h
      · exact ⟨0, h ▸ PathD.refl j⟩
      · obtain ⟨u, hu⟩ := ih h
        exact ⟨u + 1, PathD.step hp hu⟩

theorem pathTo_parent {U : Type} : ∀ {k : Nat} {f : Forest U} {x j : Nat},
    j ∈ pathTo k f x → (f j).parent_ ≠ none := by
  intro k
  induction k with
  | zero => intro f x j h; simp [pathTo] at h
  | succ k ih =>
    intro f x j h
    cases hp : (f x).parent_ with
    | none => rw [pathTo, hp] at h; simp at h
    | some p =>
      rw [pathTo, hp] at h
      rcases List.mem_cons.mp h with h | h
      · rw [h, hp]; simp
      · exact ih h

theorem root_not_mem_pathTo {U : Type} {k : Nat} {f : Forest U} {x j : Nat}
    (hj : isRoot f j) : j ∉ pathTo k f x :=
  fun hm => pathTo_parent hm hj

/-- Deterministic prefix property: a walk from `x` to `j` is an initial
segment of the walk from `x` to the root `r`. -/
theorem pathd_prefix {U : Type} {f : Forest U} {x j u : Nat}
    (h1 : PathD f x j u) : ∀ {r d : Nat}, PathD f x r d → isRoot f r →
    u ≤ d ∧ PathD f j r (d - u) := by
  induction h1 with
  | refl =>
    intro r d h2 hr
    exact ⟨Nat.zero_le d, by simpa using h2⟩
  | @step x p y u' hp _ ih =>
    intro r d h2 hr
    cases h2 with
    | refl => rw [isRoot] at hr; rw [hr] at hp; cases hp
    | @step _ p' _ d' hp' h2' =>
      rw [hp] at hp'
      cases hp'
      obtain ⟨hle, hpath⟩ := ih h2' hr
      refine ⟨by omega, ?_⟩
      have : d' - u' = d' + 1 - (u' + 1) := by omega
      rwa [this] at hpath

/-- Every node on the compression path has the same root `r` as the start
node, reached in at least one step. -/
theorem mem_pathTo_rooted {U : Type} {k : Nat} {f : Forest U} {x j r d : Nat}
    (h : PathD f x r d) (hr : isRoot f r) (hj : j ∈ pathTo k f x) :
    ∃ v, 1 ≤ v ∧ PathD f j r v := by
  obtain ⟨u, hu⟩ := pathTo_pathd hj
  obtain ⟨hle, hpath⟩ := pathd_prefix hu h hr
  refine ⟨d - u, ?_, hpath⟩
  rcases Nat.eq_zero_or_pos (d - u) with h0 | h1
  · rw [h0] at hpath
    have := pathd_zero hpath
    rw [this] at hr
    exact absurd hr (pathTo_parent hj)
  · exact h1

/-! ## `find`: frame, functional behaviour, compression, class preservation -/

/-- `find` never writes `rank_`, `hasLabel_` or `label_`. -/
theorem find_frame {U : Type} : ∀ (k : Nat) (f : Forest U) (x i : Nat),
    (((find k f x).1 i).rank_ = (f i).rank_ ∧
     ((find k f x).1 i).hasLabel_ = (f i).hasLabel_ ∧
     ((find k f x).1 i).label_ = (f i).label_) := by
  intro k
  induction k with
  | zero => intro f x i; exact ⟨rfl, rfl, rfl⟩
  | succ k ih =>
    intro f x i
    cases hp : (f x).parent_ with
    | none => refine ⟨?_, ?_, ?_⟩ <;> simp only [find, hp]
    | some p =>
      simp only [find, hp]
      by_cases hix : i = x
      · subst hix
        simp only [upd_self]
        exact ih f p i
      · rw [upd_other _ _ hix]
        exact ih f p i

/-- Main specification of `find k f x` when the walk from `x` reaches the
root `r` in `d ≤ k` steps (so the fuel never runs out): the call returns `r`,
repoints exactly the nodes on the walk to `r`, and leaves every other node
untouched. -/
theorem find_spec {U : Type} : ∀ {k : Nat} {f : Forest U} {x r d : Nat},
    PathD f x r d → isRoot f r → d ≤ k →
    (find k f x).2 = r ∧
    (∀ j, j ∈ pathTo k f x → ((find k f x).1 j).parent_ = some r) ∧
    (∀ j, j ∉ pathTo k f x → (find k f x).1 j = f j) := by
  intro k
  induction k with
  | zero =>
    intro f x r d h hr hd
    have hd0 : d = 0 := by omega
    subst hd0
    have := pathd_zero h
    subst this
    refine ⟨rfl, ?_, fun j _ => rfl⟩
    intro j hj
    simp [pathTo] at hj
  | succ k ih =>
    intro f x r d h hr hd
    cases hp : (f x).parent_ with
    | none =>
      have hrx : r = x := by
        cases h with
        | refl => rfl
        | step hp' _ => rw [hp] at hp'; cases hp'
      subst hrx
      refine ⟨?_, ?_, ?_⟩
      · simp only [find, hp]
      · intro j hj
        rw [pathTo, hp] at hj
        simp at hj
      · intro j _
        simp only [find, hp]
    | some p =>
      cases h with
      | refl => rw [isRoot] at hr; rw [hr] at hp; cases hp
      | @step _ p' _ d' hp' htail =>
        rw [hp] at hp'
        cases hp'
        have hd' : d' ≤ k := by omega
        obtain ⟨ih1, ih2, ih3⟩ := ih htail hr hd'
        have hxtail : x ∉ pathTo k f p := by
          intro hmem
          obtain ⟨u, hu⟩ := pathTo_pathd hmem
          have hcyc : PathD f x x (u + 1) := PathD.step hp hu
          have := cycle_trivial (PathD.step hp htail) hr hcyc
          omega
        refine ⟨?_, ?_, ?_⟩
        · simp only [find, hp]; exact ih1
        · intro j hj
          simp only [find, hp]
          rw [pathTo, hp] at hj
          rcases List.mem_cons.mp hj with hj | hj
          · subst hj; simp only [upd_self]; rw [ih1]
          · have hjx : j ≠ x := fun he => hxtail (he ▸ hj)
            rw [upd_other _ _ hjx]
            exact ih2 j hj
        · intro j hj
          simp only [find, hp]
          rw [pathTo, hp] at hj
          have hjx : j ≠ x := fun he => hj (he ▸ List.mem_cons_self x _)
          have hjtail : j ∉ pathTo k f p := fun hm => hj (List.mem_cons_of_mem x hm)
          rw [upd_other _ _ hjx]
          exact ih3 j hjtail

theorem rootedAt_unique {U : Type} {f : Forest U} {x r r' : Nat}
    (h : RootedAt f x r) (h' : RootedAt f x r') : r = r' := by
  obtain ⟨d, hp, hs⟩ := h
  obtain ⟨d', hp', hs'⟩ := h'
  exact (rooted_unique hp hs hp' hs').1

/-- `find` touches only the nodes on the compression path (unconditionally,
also when the fuel runs out). -/
theorem find_untouched {U : Type} : ∀ (k : Nat) (f : Forest U) (x j : Nat),
    j ∉ pathTo k f x → (find k f x).1 j = f j := by
  intro k
  induction k with
  | zero => intro f x j _; rfl
  | succ k ih =>
    intro f x j hj
    cases hp : (f x).parent_ with
    | none => simp only [find, hp]
    | some p =>
      rw [pathTo, hp] at hj
      have hjx : j ≠ x := fun he => hj (he ▸ List.mem_cons_self x _)
      have hjtail : j ∉ pathTo k f p := fun hm => hj (List.mem_cons_of_mem x hm)
      simp only [find, hp]
      rw [upd_other _ _ hjx]
      exact ih f p j hjtail

/-- Roots stay roots across any `find` call. -/
theorem find_preserves_root {U : Type} {k : Nat} {f : Forest U} {x b : Nat}
    (hb : isRoot f b) : isRoot (find k f x).1 b := by
  rw [isRoot, find_untouched k f x b (root_not_mem_pathTo hb)]
  exact hb

/-- Rerouting a set `S` of nodes directly to their common root `r` preserves
every component: walks in the new forest reach exactly the roots they reached
before. -/
theorem reroute_sameRoot {U : Type} {f f' : Forest U} {r : Nat} {S : Nat → Prop}
    (hS : ∀ j, S j → (f' j).parent_ = some r)
    (hfr : ∀ j, ¬ S j → f' j = f j)
    (hup : ∀ j, S j → ∃ v, 1 ≤ v ∧ PathD f j r v)
    (hr : isRoot f r) :
    ∀ j s, RootedAt f' j s ↔ RootedAt f j s := by
  have hSr : ¬ S r := by
    intro hmem
    obtain ⟨v, hv1, hv⟩ := hup r hmem
    obtain ⟨_, h0⟩ := pathd_from_root hr hv
    omega
  have hr' : isRoot f' r := by
    rw [isRoot, hfr r hSr]; exact hr
  intro j s
  constructor
  · rintro ⟨t, hp, hs⟩
    induction hp with
    | refl =>
      rename_i j0
      have hj0 : ¬ S j0 := by
        intro hmem
        rw [isRoot, hS j0 hmem] at hs
        cases hs
      exact ⟨0, PathD.refl _, by rw [isRoot, ← hfr j0 hj0]; exact hs⟩
    | @step j0 p s0 t0 hpar hrest ih =>
      by_cases hj0 : S j0
      · have hpr : p = r := by
          rw [hS j0 hj0] at hpar
          cases hpar
          rfl
        subst hpr
        obtain ⟨hsr, _⟩ := pathd_from_root hr' hrest
        subst hsr
        obtain ⟨v, _, hv⟩ := hup j0 hj0
        exact ⟨v, hv, hr⟩
      · have hpar' : (f j0).parent_ = some p := by rw [← hfr j0 hj0]; exact hpar
        exact RootedAt.prepend hpar' (ih hs)
  · rintro ⟨t, hp, hs⟩
    induction hp with
    | refl =>
      rename_i j0
      have hj0 : ¬ S j0 := by
        intro hmem
        obtain ⟨v, hv1, hv⟩ := hup j0 hmem
        obtain ⟨_, h0⟩ := pathd_from_root hs hv
        omega
      exact ⟨0, PathD.refl _, by rw [isRoot, hfr j0 hj0]; exact hs⟩
    | @step j0 p s0 t0 hpar hrest ih =>
      by_cases hj0 : S j0
      · have hxs : RootedAt f j0 s0 := ⟨t0 + 1, PathD.step hpar hrest, hs⟩
        obtain ⟨v, _, hv⟩ := hup j0 hj0
        have hxr : RootedAt f j0 r := ⟨v, hv, hr⟩
        have hsr : s0 = r := rootedAt_unique hxs hxr
        rw [hsr]
        exact ⟨1, PathD.step (hS j0 hj0) (PathD.refl r), hr'⟩
      · have hpar' : (f' j0).parent_ = some p := by rw [hfr j0 hj0]; exact hpar
        exact RootedAt.prepend hpar' (ih hs)

/-- Path compression does not change which nodes belong to which component. -/
theorem find_sameRoot {U : Type} {k : Nat} {f : Forest U} {x r d : Nat}
    (h : PathD f x r d) (hr : isRoot f r) (hd : d ≤ k) :
    ∀ j s, RootedAt (find k f x).1 j s ↔ RootedAt f j s := by
  obtain ⟨_, h2, h3⟩ := find_spec h hr hd
  exact reroute_sameRoot h2 h3 (fun j hj => mem_pathTo_rooted h hr hj) hr

/-- After a `find`, every walk to a root is at most as long as before
(compression only shortens chains). -/
theorem find_shortens {U : Type} {k : Nat} {f : Forest U} {x r d : Nat}
    (h : PathD f x r d) (hr : isRoot f r) (hd : d ≤ k) :
    ∀ {j s t : Nat}, PathD f j s t → isRoot f s →
    ∃ t', t' ≤ t ∧ PathD (find k f x).1 j s t' := by
  obtain ⟨_, h2, h3⟩ := find_spec h hr hd
  intro j s t hp hs
  induction hp with
  | refl => exact ⟨0, Nat.le_refl 0, PathD.refl _⟩
  | @step j0 q s0 t0 hq hrest ih =>
    by_cases hj0 : j0 ∈ pathTo k f x
    · obtain ⟨v, hv1, hv⟩ := mem_pathTo_rooted h hr hj0
      have hrootj : RootedAt f j0 r := ⟨v, hv, hr⟩
      have hroots : RootedAt f j0 s0 := ⟨t0 + 1, PathD.step hq hrest, hs⟩
      have hsr : s0 = r := rootedAt_unique hroots hrootj
      rw [hsr]
      exact ⟨1, by omega, PathD.step (h2 j0 hj0) (PathD.refl r)⟩
    · obtain ⟨t', ht', hpath⟩ := ih hs
      refine ⟨t' + 1, by omega, PathD.step ?_ hpath⟩
      rw [h3 j0 hj0]
      exact hq

/-- In a well-formed forest, walks stay in the arena and gain at least one
rank per step. -/
theorem wf_path_facts {U : Type} {n : Nat} {f : Forest U} (hwf : WF n f)
    {x y t : Nat} (h : PathD f x y t) (hx : x < n) :
    y < n ∧ (f x).rank_ + t ≤ (f y).rank_ := by
  induction h with
  | refl => exact ⟨hx, by omega⟩
  | @step x0 p y0 t0 hp _ ih =>
    obtain ⟨_, hcase⟩ := hwf x0 hx
    rcases hcase with hnone | ⟨p', hp', hpn, hrank⟩
    · rw [hnone] at hp; cases hp
    · rw [hp'] at hp
      cases hp
      obtain ⟨hyn, hr⟩ := ih hpn
      exact ⟨hyn, by omega⟩

/-- Every in-arena node of a well-formed forest reaches a root, within
`RANK_MAX` steps (so fuel `FUEL` always suffices). -/
theorem wf_grounded {U : Type} {n : Nat} {f : Forest U} (hwf : WF n f) :
    ∀ x, x < n →
    ∃ r d, PathD f x r d ∧ isRoot f r ∧ r < n ∧ d + (f x).rank_ ≤ RANK_MAX := by
  suffices hm : ∀ m x, x < n → RANK_MAX - (f x).rank_ ≤ m →
      ∃ r d, PathD f x r d ∧ isRoot f r ∧ r < n ∧ d + (f x).rank_ ≤ RANK_MAX by
    intro x hx
    exact hm RANK_MAX x hx (by omega)
  intro m
  induction m with
  | zero =>
    intro x hx hm
    obtain ⟨hrank, hcase⟩ := hwf x hx
    rcases hcase with hnone | ⟨p, hp, hpn, hr⟩
    · exact ⟨x, 0, PathD.refl x, hnone, hx, by omega⟩
    · obtain ⟨hrankp, _⟩ := hwf p hpn
      omega
  | succ m ih =>
    intro x hx hm
    obtain ⟨hrank, hcase⟩ := hwf x hx
    rcases hcase with hnone | ⟨p, hp, hpn, hr⟩
    · exact ⟨x, 0, PathD.refl x, hnone, hx, by omega⟩
    · obtain ⟨hrankp, _⟩ := hwf p hpn
      obtain ⟨r, d, hpath, hroot, hrn, hd⟩ := ih p hpn (by omega)
      exact ⟨r, d + 1, PathD.step hp hpath, hroot, hrn, by omega⟩

/-! ## `unite`: attach lemma and case equations -/

/-- Attaching the root `b` under a distinct root `a` redirects exactly the
component of `b` onto the root `a` and leaves every other component alone. -/
theorem rootedAt_attach {U : Type} {f : Forest U} {a b : Nat}
    (ha : isRoot f a) (hb : isRoot f b) (hab : a ≠ b)
    {v : Set U} (hv : v.parent_ = some a) :
    ∀ j s, RootedAt (upd f b v) j s ↔
      ((RootedAt f j s ∧ s ≠ b) ∨ (RootedAt f j b ∧ s = a)) := by
  have hga : isRoot (upd f b v) a := by
    rw [isRoot, upd_other _ _ hab]; exact ha
  have hgb : ((upd f b v) b).parent_ = some a := by rw [upd_self]; exact hv
  intro j s
  constructor
  · rintro ⟨t, hp, hs⟩
    induction hp with
    | refl =>
      rename_i j0
      have hj0 : j0 ≠ b := by
        intro he
        rw [isRoot, he, hgb] at hs
        cases hs
      rw [isRoot, upd_other _ _ hj0] at hs
      exact Or.inl ⟨⟨0, PathD.refl j0, hs⟩, hj0⟩
    | @step j0 p s0 t0 hpar hrest ih =>
      by_cases hj0 : j0 = b
      · subst hj0
        rw [hgb] at hpar
        cases hpar
        obtain ⟨hs0, _⟩ := pathd_from_root hga hrest
        exact Or.inr ⟨⟨0, PathD.refl j0, hb⟩, hs0⟩
      · have hpar' : (f j0).parent_ = some p := by
          rw [← upd_other f v hj0]; exact hpar
        rcases ih hs with ⟨hps, hsb⟩ | ⟨hpb, hsa⟩
        · exact Or.inl ⟨RootedAt.prepend hpar' hps, hsb⟩
        · exact Or.inr ⟨RootedAt.prepend hpar' hpb, hsa⟩
  · rintro (⟨⟨t, hp, hs⟩, hsb⟩ | ⟨⟨t, hp, hs⟩, hsa⟩)
    · exact ⟨t, pathd_upd_root hb v hp, by rw [isRoot, upd_other _ _ hsb]; exact hs⟩
    · subst hsa
      have hpb : PathD (upd f b v) j b t := pathd_upd_root hb v hp
      have hba : PathD (upd f b v) b s 1 := PathD.step hgb (PathD.refl s)
      exact ⟨t + 1, hpb.compose hba, hga⟩

theorem uniteCore_gt {U : Type} {f2 : Forest U} {xr yr : Nat}
    (h : (f2 xr).rank_ > (f2 yr).rank_) :
    uniteCore f2 xr yr = (upd f2 yr { f2 yr with parent_ := some xr }, false) := by
  simp [uniteCore, h]

theorem uniteCore_lt {U : Type} {f2 : Forest U} {xr yr : Nat}
    (h : (f2 xr).rank_ < (f2 yr).rank_) :
    uniteCore f2 xr yr = (upd f2 xr { f2 xr with parent_ := some yr }, false) := by
  have h' : ¬ (f2 xr).rank_ > (f2 yr).rank_ := by omega
  simp [uniteCore, h, h']

theorem uniteCore_eq_max {U : Type} {f2 : Forest U} {xr yr : Nat}
    (heq : (f2 xr).rank_ = (f2 yr).rank_) (hne : xr ≠ yr)
    (hmax : (f2 xr).rank_ = RANK_MAX) :
    uniteCore f2 xr yr = (upd f2 yr { f2 yr with parent_ := some xr }, true) := by
  have h1 : ¬ (f2 xr).rank_ > (f2 yr).rank_ := by omega
  have h2 : ¬ (f2 xr).rank_ < (f2 yr).rank_ := by omega
  have h3 : ((upd f2 yr { f2 yr with parent_ := some xr }) xr).rank_ = RANK_MAX := by
    rw [upd_other _ _ hne]; exact hmax
  simp [uniteCore, h1, h2, hne, h3]

theorem uniteCore_eq_inc {U : Type} {f2 : Forest U} {xr yr : Nat}
    (heq : (f2 xr).rank_ = (f2 yr).rank_) (hne : xr ≠ yr)
    (hmax : (f2 xr).rank_ ≠ RANK_MAX) :
    uniteCore f2 xr yr =
      (upd (upd f2 yr { f2 yr with parent_ := some xr }) xr
        { f2 xr with rank_ := (f2 xr).rank_ + 1 }, false) := by
  have h1 : ¬ (f2 xr).rank_ > (f2 yr).rank_ := by omega
  have h2 : ¬ (f2 xr).rank_ < (f2 yr).rank_ := by omega
  have h3 : ((upd f2 yr { f2 yr with parent_ := some xr }) xr) = f2 xr :=
    upd_other _ _ hne
  simp only [uniteCore, if_neg h1, if_neg h2, if_pos hne, h3, if_neg hmax]

theorem uniteCore_same {U : Type} {f2 : Forest U} {xr : Nat} :
    uniteCore f2 xr xr = (f2, false) := by
  simp [uniteCore]

/-- Wiring of `unite`: the two `find` calls return the two roots, preserve
ranks and components, and hand `uniteCore` a state in which both roots are
still roots. -/
theorem unite_setup {U : Type} {k : Nat} {f : Forest U} {x y xr yr dx dy : Nat}
    (hx : PathD f x xr dx) (hrx : isRoot f xr) (hdx : dx ≤ k)
    (hy : PathD f y yr dy) (hry : isRoot f yr) (hdy : dy ≤ k) :
    unite k f x y = uniteCore (find k (find k f x).1 y).1 xr yr ∧
    isRoot (find k (find k f x).1 y).1 xr ∧
    isRoot (find k (find k f x).1 y).1 yr ∧
    (∀ i, ((find k (find k f x).1 y).1 i).rank_ = (f i).rank_) ∧
    (∀ j s, RootedAt (find k (find k f x).1 y).1 j s ↔ RootedAt f j s) ∧
    RootedAt (find k (find k f x).1 y).1 x xr ∧
    RootedAt (find k (find k f x).1 y).1 y yr := by
  obtain ⟨hfx2, _, _⟩ := find_spec hx hrx hdx
  obtain ⟨ty, hty, hpy1⟩ := find_shortens hx hrx hdx hy hry
  have hr1y : isRoot (find k f x).1 yr := find_preserves_root hry
  obtain ⟨hfy2, _, _⟩ := find_spec hpy1 hr1y (le_trans hty hdy)
  have hclasses1 := find_sameRoot hx hrx hdx
  have hclasses2 := find_sameRoot hpy1 hr1y (le_trans hty hdy)
  have hclasses : ∀ j s,
      RootedAt (find k (find k f x).1 y).1 j s ↔ RootedAt f j s := by
    intro j s
    rw [hclasses2 j s, hclasses1 j s]
  refine ⟨?_, ?_, ?_, ?_, hclasses, ?_, ?_⟩
  · show uniteCore (find k (find k f x).1 y).1 (find k f x).2
      (find k (find k f x).1 y).2 = uniteCore (find k (find k f x).1 y).1 xr yr
    rw [hfx2, hfy2]
  · exact find_preserves_root (find_preserves_root hrx)
  · exact find_preserves_root hr1y
  · intro i
    obtain ⟨hr2, _, _⟩ := find_frame k (find k f x).1 y i
    obtain ⟨hr1, _, _⟩ := find_frame k f x i
    rw [hr2, hr1]
  · exact (hclasses x xr).mpr ⟨dx, hx, hrx⟩
  · exact (hclasses y yr).mpr ⟨dy, hy, hry⟩

theorem upd_label_frame {U : Type} (f : Forest U) (x : Nat) (v : Set U)
    (h1 : v.hasLabel_ = (f x).hasLabel_) (h2 : v.label_ = (f x).label_) (i : Nat) :
    ((upd f x v) i).hasLabel_ = (f i).hasLabel_ ∧
    ((upd f x v) i).label_ = (f i).label_ := by
  by_cases hix : i = x
  · subst hix; rw [upd_self]; exact ⟨h1, h2⟩
  · rw [upd_other _ _ hix]; exact ⟨rfl, rfl⟩

/-- `uniteCore` never writes `hasLabel_` or `label_`. -/
theorem uniteCore_label_frame {U : Type} (f2 : Forest U) (xr yr i : Nat) :
    (((uniteCore f2 xr yr).1 i).hasLabel_ = (f2 i).hasLabel_ ∧
     ((uniteCore f2 xr yr).1 i).label_ = (f2 i).label_) := by
  by_cases h1 : (f2 xr).rank_ > (f2 yr).rank_
  · rw [uniteCore_gt h1]
    exact upd_label_frame f2 yr { f2 yr with parent_ := some xr } rfl rfl i
  · by_cases h2 : (f2 xr).rank_ < (f2 yr).rank_
    · rw [uniteCore_lt h2]
      exact upd_label_frame f2 xr { f2 xr with parent_ := some yr } rfl rfl i
    · have heq : (f2 xr).rank_ = (f2 yr).rank_ := by omega
      by_cases h3 : xr = yr
      · subst h3; rw [uniteCore_same]; exact ⟨rfl, rfl⟩
      · by_cases h4 : (f2 xr).rank_ = RANK_MAX
        · rw [uniteCore_eq_max heq h3 h4]
          exact upd_label_frame f2 yr { f2 yr with parent_ := some xr } rfl rfl i
        · rw [uniteCore_eq_inc heq h3 h4]
          have hGxr : (upd f2 yr { f2 yr with parent_ := some xr }) xr = f2 xr :=
            upd_other f2 { f2 yr with parent_ := some xr } h3
          obtain ⟨ha1, ha2⟩ :=
            upd_label_frame (upd f2 yr { f2 yr with parent_ := some xr }) xr
              { f2 xr with rank_ := (f2 xr).rank_ + 1 }
              (by rw [hGxr]) (by rw [hGxr]) i
          obtain ⟨hb1, hb2⟩ :=
            upd_label_frame f2 yr { f2 yr with parent_ := some xr } rfl rfl i
          exact ⟨ha1.trans hb1, ha2.trans hb2⟩

/-- `unite` never writes `hasLabel_` or `label_` (with any fuel, in any state). -/
theorem unite_label_frame {U : Type} (k : Nat) (f : Forest U) (x y i : Nat) :
    (((unite k f x y).1 i).hasLabel_ = (f i).hasLabel_ ∧
     ((unite k f x y).1 i).label_ = (f i).label_) := by
  obtain ⟨hc1, hc2⟩ :=
    uniteCore_label_frame (find k (find k f x).1 y).1 (find k f x).2
      (find k (find k f x).1 y).2 i
  obtain ⟨_, hf1, hf2⟩ := find_frame k (find k f x).1 y i
  obtain ⟨_, hg1, hg2⟩ := find_frame k f x i
  exact ⟨by rw [show (unite k f x y).1 = (uniteCore (find k (find k f x).1 y).1
      (find k f x).2 (find k (find k f x).1 y).2).1 from rfl, hc1, hf1, hg1],
    by rw [show (unite k f x y).1 = (uniteCore (find k (find k f x).1 y).1
      (find k f x).2 (find k (find k f x).1 y).2).1 from rfl, hc2, hf2, hg2]⟩

theorem sameRoot_iff_rootedAt {U : Type} {f : Forest U} {x xr : Nat}
    (hx : RootedAt f x xr) (a : Nat) : sameRoot f a x ↔ RootedAt f a xr := by
  constructor
  · rintro ⟨r, ha, hx'⟩
    rw [← rootedAt_unique hx' hx]
    exact ha
  · intro h
    exact ⟨xr, h, hx⟩

theorem sameRoot_symm {U : Type} {f : Forest U} {a b : Nat}
    (h : sameRoot f a b) : sameRoot f b a := by
  obtain ⟨r, ha, hb⟩ := h
  exact ⟨r, hb, ha⟩

theorem sameRoot_congr_iff {U : Type} {f g : Forest U}
    (h : ∀ j s, RootedAt g j s ↔ RootedAt f j s) (a b : Nat) :
    sameRoot g a b ↔ sameRoot f a b := by
  constructor
  · rintro ⟨r, ha, hb⟩; exact ⟨r, (h a r).mp ha, (h b r).mp hb⟩
  · rintro ⟨r, ha, hb⟩; exact ⟨r, (h a r).mpr ha, (h b r).mpr hb⟩

/-- Components after attaching root `l` under root `w`: old components,
plus the merge of the two classes. -/
theorem attach_sameRoot {U : Type} {f2 : Forest U} {w l : Nat}
    (hw : isRoot f2 w) (hl : isRoot f2 l) (hwl : w ≠ l)
    {v : Set U} (hv : v.parent_ = some w) (a b : Nat) :
    sameRoot (upd f2 l v) a b ↔
      (sameRoot f2 a b ∨ (RootedAt f2 a w ∧ RootedAt f2 b l) ∨
       (RootedAt f2 a l ∧ RootedAt f2 b w)) := by
  have hat := rootedAt_attach hw hl hwl hv
  constructor
  · rintro ⟨s, ha, hb⟩
    rcases (hat a s).mp ha with ⟨ha', hsl⟩ | ⟨ha', hsw⟩ <;>
      rcases (hat b s).mp hb with ⟨hb', _⟩ | ⟨hb', hsw'⟩
    · exact Or.inl ⟨s, ha', hb'⟩
    · subst hsw'
      exact Or.inr (Or.inl ⟨ha', hb'⟩)
    · subst hsw
      exact Or.inr (Or.inr ⟨ha', hb'⟩)
    · exact Or.inl ⟨l, ha', hb'⟩
  · rintro (⟨s, ha, hb⟩ | ⟨ha, hb⟩ | ⟨ha, hb⟩)
    · by_cases hsl : s = l
      · subst hsl
        exact ⟨w, (hat a w).mpr (Or.inr ⟨ha, rfl⟩), (hat b w).mpr (Or.inr ⟨hb, rfl⟩)⟩
      · exact ⟨s, (hat a s).mpr (Or.inl ⟨ha, hsl⟩), (hat b s).mpr (Or.inl ⟨hb, hsl⟩)⟩
    · exact ⟨w, (hat a w).mpr (Or.inl ⟨ha, hwl⟩),
        (hat b w).mpr (Or.inr ⟨hb, rfl⟩)⟩
    · exact ⟨w, (hat a w).mpr (Or.inr ⟨ha, rfl⟩),
        (hat b w).mpr (Or.inl ⟨hb, hwl⟩)⟩

theorem sameRoot_comm {U : Type} {f : Forest U} {a b : Nat} :
    sameRoot f a b ↔ sameRoot f b a :=
  ⟨sameRoot_symm, sameRoot_symm⟩

theorem or3_congr {P Q R Pa Qa Ra : Prop}
    (h1 : P ↔ Pa) (h2 : Q ↔ Qa) (h3 : R ↔ Ra) :
    (P ∨ Q ∨ R) ↔ (Pa ∨ Qa ∨ Ra) := by tauto

theorem or3_congr_swap {P Q R Pa Qa Ra : Prop}
    (h1 : P ↔ Pa) (h2 : Q ↔ Ra) (h3 : R ↔ Qa) :
    (P ∨ Q ∨ R) ↔ (Pa ∨ Qa ∨ Ra) := by tauto

/-- Translation of the post-attach class description from the intermediate
state `F2` back to the pre-state `f` and the original nodes `x`, `y`. -/
theorem join_translate {U : Type} {f F2 : Forest U} {x y xr yr : Nat}
    (hcl : ∀ j s, RootedAt F2 j s ↔ RootedAt f j s)
    (hxx : RootedAt f x xr) (hyy : RootedAt f y yr) (a b : Nat) :
    ((sameRoot F2 a b ∨ (RootedAt F2 a xr ∧ RootedAt F2 b yr) ∨
      (RootedAt F2 a yr ∧ RootedAt F2 b xr)) ↔
     (sameRoot f a b ∨ (sameRoot f a x ∧ sameRoot f y b) ∨
      (sameRoot f a y ∧ sameRoot f x b))) := by
  have hA : RootedAt F2 a xr ↔ sameRoot f a x :=
    (hcl a xr).trans (sameRoot_iff_rootedAt hxx a).symm
  have hB : RootedAt F2 b yr ↔ sameRoot f y b :=
    (hcl b yr).trans ((sameRoot_iff_rootedAt hyy b).symm.trans sameRoot_comm)
  have hC : RootedAt F2 a yr ↔ sameRoot f a y :=
    (hcl a yr).trans (sameRoot_iff_rootedAt hyy a).symm
  have hD : RootedAt F2 b xr ↔ sameRoot f x b :=
    (hcl b xr).trans ((sameRoot_iff_rootedAt hxx b).symm.trans sameRoot_comm)
  exact or3_congr (sameRoot_congr_iff hcl a b) (and_congr hA hB) (and_congr hC hD)
theorem uniteCore_gt_fst {U : Type} {f2 : Forest U} {xr yr : Nat}
    (h : (f2 xr).rank_ > (f2 yr).rank_) :
    (uniteCore f2 xr yr).1 = upd f2 yr { f2 yr with parent_ := some xr } := by
  rw [uniteCore_gt h]

theorem uniteCore_gt_snd {U : Type} {f2 : Forest U} {xr yr : Nat}
    (h : (f2 xr).rank_ > (f2 yr).rank_) : (uniteCore f2 xr yr).2 = false := by
  rw [uniteCore_gt h]

theorem uniteCore_lt_fst {U : Type} {f2 : Forest U} {xr yr : Nat}
    (h : (f2 xr).rank_ < (f2 yr).rank_) :
    (uniteCore f2 xr yr).1 = upd f2 xr { f2 xr with parent_ := some yr } := by
  rw [uniteCore_lt h]

theorem uniteCore_lt_snd {U : Type} {f2 : Forest U} {xr yr : Nat}
    (h : (f2 xr).rank_ < (f2 yr).rank_) : (uniteCore f2 xr yr).2 = false := by
  rw [uniteCore_lt h]

theorem uniteCore_eq_max_fst {U : Type} {f2 : Forest U} {xr yr : Nat}
    (heq : (f2 xr).rank_ = (f2 yr).rank_) (hne : xr ≠ yr)
    (hmax : (f2 xr).rank_ = RANK_MAX) :
    (uniteCore f2 xr yr).1 = upd f2 yr { f2 yr with parent_ := some xr } := by
  rw [uniteCore_eq_max heq hne hmax]

theorem uniteCore_eq_max_snd {U : Type} {f2 : Forest U} {xr yr : Nat}
    (heq : (f2 xr).rank_ = (f2 yr).rank_) (hne : xr ≠ yr)
    (hmax : (f2 xr).rank_ = RANK_MAX) : (uniteCore f2 xr yr).2 = true := by
  rw [uniteCore_eq_max heq hne hmax]

theorem uniteCore_eq_inc_fst {U : Type} {f2 : Forest U} {xr yr : Nat}
    (heq : (f2 xr).rank_ = (f2 yr).rank_) (hne : xr ≠ yr)
    (hmax : (f2 xr).rank_ ≠ RANK_MAX) :
    (uniteCore f2 xr yr).1 =
      upd (upd f2 yr { f2 yr with parent_ := some xr }) xr
        { f2 xr with rank_ := (f2 xr).rank_ + 1 } := by
  rw [uniteCore_eq_inc heq hne hmax]

theorem uniteCore_eq_inc_snd {U : Type} {f2 : Forest U} {xr yr : Nat}
    (heq : (f2 xr).rank_ = (f2 yr).rank_) (hne : xr ≠ yr)
    (hmax : (f2 xr).rank_ ≠ RANK_MAX) : (uniteCore f2 xr yr).2 = false := by
  rw [uniteCore_eq_inc heq hne hmax]

theorem uniteCore_same_fst {U : Type} {f2 : Forest U} {xr : Nat} :
    (uniteCore f2 xr xr).1 = f2 := by
  rw [uniteCore_same]

theorem uniteCore_same_snd {U : Type} {f2 : Forest U} {xr : Nat} :
    (uniteCore f2 xr xr).2 = false := by
  rw [uniteCore_same]

/-- Full case analysis of `unite`: attachments, rank changes and the error
flag, in terms of the ranks that the two roots had before the call. -/
theorem unite_facts {U : Type} {k : Nat} {f : Forest U} {x y xr yr dx dy : Nat}
    (hx : PathD f x xr dx) (hrx : isRoot f xr) (hdx : dx ≤ k)
    (hy : PathD f y yr dy) (hry : isRoot f yr) (hdy : dy ≤ k) :
    ((f xr).rank_ > (f yr).rank_ →
      (unite k f x y).2 = false ∧
      ((unite k f x y).1 yr).parent_ = some xr ∧
      (∀ i, ((unite k f x y).1 i).rank_ = (f i).rank_)) ∧
    ((f xr).rank_ < (f yr).rank_ →
      (unite k f x y).2 = false ∧
      ((unite k f x y).1 xr).parent_ = some yr ∧
      (∀ i, ((unite k f x y).1 i).rank_ = (f i).rank_)) ∧
    ((f xr).rank_ = (f yr).rank_ → xr ≠ yr → (f xr).rank_ ≠ RANK_MAX →
      (unite k f x y).2 = false ∧
      ((unite k f x y).1 yr).parent_ = some xr ∧
      ((unite k f x y).1 xr).rank_ = (f xr).rank_ + 1 ∧
      (∀ i, i ≠ xr → ((unite k f x y).1 i).rank_ = (f i).rank_)) ∧
    ((f xr).rank_ = (f yr).rank_ → xr ≠ yr → (f xr).rank_ = RANK_MAX →
      (unite k f x y).2 = true ∧
      ((unite k f x y).1 yr).parent_ = some xr ∧
      (∀ i, ((unite k f x y).1 i).rank_ = (f i).rank_)) ∧
    (xr = yr →
      (unite k f x y).2 = false ∧
      (∀ i, (unite k f x y).1 i = (find k (find k f x).1 y).1 i)) := by
  obtain ⟨hu, hrx2, hry2, hrank, hcl, hxx, hyy⟩ := unite_setup hx hrx hdx hy hry hdy
  refine ⟨?_, ?_, ?_, ?_, ?_⟩
  · intro h
    have h2 : ((find k (find k f x).1 y).1 xr).rank_ >
        ((find k (find k f x).1 y).1 yr).rank_ := by rw [hrank xr, hrank yr]; exact h
    refine ⟨by rw [hu, uniteCore_gt_snd h2], ?_, ?_⟩
    · rw [hu, uniteCore_gt_fst h2, upd_self]
    · intro i
      rw [hu, uniteCore_gt_fst h2]
      by_cases hiy : i = yr
      · rw [hiy, upd_self]
        exact hrank yr
      · rw [upd_other _ _ hiy]
        exact hrank i
  · intro h
    have h2 : ((find k (find k f x).1 y).1 xr).rank_ <
        ((find k (find k f x).1 y).1 yr).rank_ := by rw [hrank xr, hrank yr]; exact h
    refine ⟨by rw [hu, uniteCore_lt_snd h2], ?_, ?_⟩
    · rw [hu, uniteCore_lt_fst h2, upd_self]
    · intro i
      rw [hu, uniteCore_lt_fst h2]
      by_cases hix : i = xr
      · rw [hix, upd_self]
        exact hrank xr
      · rw [upd_other _ _ hix]
        exact hrank i
  · intro heq hne hmax
    have h2 : ((find k (find k f x).1 y).1 xr).rank_ =
        ((find k (find k f x).1 y).1 yr).rank_ := by rw [hrank xr, hrank yr]; exact heq
    have h4 : ((find k (find k f x).1 y).1 xr).rank_ ≠ RANK_MAX := by
      rw [hrank xr]; exact hmax
    have hyx : yr ≠ xr := Ne.symm hne
    refine ⟨by rw [hu, uniteCore_eq_inc_snd h2 hne h4], ?_, ?_, ?_⟩
    · rw [hu, uniteCore_eq_inc_fst h2 hne h4, upd_other _ _ hyx, upd_self]
    · rw [hu, uniteCore_eq_inc_fst h2 hne h4, upd_self]
      show ((find k (find k f x).1 y).1 xr).rank_ + 1 = (f xr).rank_ + 1
      rw [hrank xr]
    · intro i hi
      rw [hu, uniteCore_eq_inc_fst h2 hne h4, upd_other _ _ hi]
      by_cases hiy : i = yr
      · rw [hiy, upd_self]
        exact hrank yr
      · rw [upd_other _ _ hiy]
        exact hrank i
  · intro heq hne hmax
    have h2 : ((find k (find k f x).1 y).1 xr).rank_ =
        ((find k (find k f x).1 y).1 yr).rank_ := by rw [hrank xr, hrank yr]; exact heq
    have h4 : ((find k (find k f x).1 y).1 xr).rank_ = RANK_MAX := by
      rw [hrank xr]; exact hmax
    refine ⟨by rw [hu, uniteCore_eq_max_snd h2 hne h4], ?_, ?_⟩
    · rw [hu, uniteCore_eq_max_fst h2 hne h4, upd_self]
    · intro i
      rw [hu, uniteCore_eq_max_fst h2 hne h4]
      by_cases hiy : i = yr
      · rw [hiy, upd_self]
        exact hrank yr
      · rw [upd_other _ _ hiy]
        exact hrank i
  · intro hsame
    subst hsame
    exact ⟨by rw [hu, uniteCore_same_snd], fun i => by rw [hu, uniteCore_same_fst]⟩

/-- Effect of one `unite` call on the component structure: the components of
`x` and `y` are merged (also when the overflow exception fires), and no other
components change. -/
theorem unite_sameRoot {U : Type} {k : Nat} {f : Forest U} {x y xr yr dx dy : Nat}
    (hx : PathD f x xr dx) (hrx : isRoot f xr) (hdx : dx ≤ k)
    (hy : PathD f y yr dy) (hry : isRoot f yr) (hdy : dy ≤ k) :
    ∀ a b, sameRoot (unite k f x y).1 a b ↔
      (sameRoot f a b ∨ (sameRoot f a x ∧ sameRoot f y b) ∨
       (sameRoot f a y ∧ sameRoot f x b)) := by
  obtain ⟨hu, hrx2, hry2, hrank, hcl, _, _⟩ := unite_setup hx hrx hdx hy hry hdy
  have hxxf : RootedAt f x xr := ⟨dx, hx, hrx⟩
  have hyyf : RootedAt f y yr := ⟨dy, hy, hry⟩
  intro a b
  have hne_of_rank : ((find k (find k f x).1 y).1 xr).rank_ ≠
      ((find k (find k f x).1 y).1 yr).rank_ → xr ≠ yr := by
    intro hne he
    exact hne (by rw [he])
  by_cases h1 : ((find k (find k f x).1 y).1 xr).rank_ >
      ((find k (find k f x).1 y).1 yr).rank_
  · rw [hu, uniteCore_gt_fst h1]
    have hwl : xr ≠ yr := hne_of_rank (by omega)
    rw [attach_sameRoot hrx2 hry2 hwl rfl a b]
    exact join_translate hcl hxxf hyyf a b
  · by_cases h2 : ((find k (find k f x).1 y).1 xr).rank_ <
        ((find k (find k f x).1 y).1 yr).rank_
    · rw [hu, uniteCore_lt_fst h2]
      have hwl : yr ≠ xr := Ne.symm (hne_of_rank (by omega))
      rw [attach_sameRoot hry2 hrx2 hwl rfl a b]
      have hj := join_translate hcl hxxf hyyf a b
      rw [← hj]
      exact or3_congr_swap Iff.rfl Iff.rfl Iff.rfl
    · have heq : ((find k (find k f x).1 y).1 xr).rank_ =
          ((find k (find k f x).1 y).1 yr).rank_ := by omega
      by_cases h3 : xr = yr
      · rw [hu, h3, uniteCore_same_fst]
        rw [sameRoot_congr_iff hcl a b]
        constructor
        · exact Or.inl
        · rintro (h | ⟨ha, hb⟩ | ⟨ha, hb⟩)
          · exact h
          · have haxr : RootedAt f a xr := (sameRoot_iff_rootedAt hxxf a).mp ha
            have hbyr : RootedAt f b yr :=
              (sameRoot_iff_rootedAt hyyf b).mp (sameRoot_symm hb)
            exact ⟨xr, haxr, by rw [h3]; exact hbyr⟩
          · have hayr : RootedAt f a yr := (sameRoot_iff_rootedAt hyyf a).mp ha
            have hbxr : RootedAt f b xr :=
              (sameRoot_iff_rootedAt hxxf b).mp (sameRoot_symm hb)
            exact ⟨yr, hayr, by rw [← h3]; exact hbxr⟩
      · by_cases h4 : ((find k (find k f x).1 y).1 xr).rank_ = RANK_MAX
        · rw [hu, uniteCore_eq_max_fst heq h3 h4]
          rw [attach_sameRoot hrx2 hry2 h3 rfl a b]
          exact join_translate hcl hxxf hyyf a b
        · rw [hu, uniteCore_eq_inc_fst heq h3 h4]
          have hpar : ∀ i,
              ((upd (upd (find k (find k f x).1 y).1 yr
                  { (find k (find k f x).1 y).1 yr with parent_ := some xr }) xr
                  { (find k (find k f x).1 y).1 xr with
                      rank_ := ((find k (find k f x).1 y).1 xr).rank_ + 1 }) i).parent_ =
              ((upd (find k (find k f x).1 y).1 yr
                  { (find k (find k f x).1 y).1 yr with parent_ := some xr }) i).parent_ := by
            intro i
            by_cases hix : i = xr
            · rw [hix, upd_self, upd_other _ _ h3]
            · rw [upd_other _ _ hix]
          rw [sameRoot_congr_iff (fun j s =>
            ⟨rootedAt_congr (fun i => (hpar i).symm), rootedAt_congr hpar⟩) a b]
          rw [attach_sameRoot hrx2 hry2 h3 rfl a b]
          exact join_translate hcl hxxf hyyf a b

/-! ## Preservation of `WF` by `find` and non-failing `unite` -/

/-- `find` preserves well-formedness whenever the fuel dominates `RANK_MAX`. -/
theorem find_wf {U : Type} {n k : Nat} {f : Forest U} {x : Nat}
    (hwf : WF n f) (hx : x < n) (hk : RANK_MAX ≤ k) : WF n (find k f x).1 := by
  obtain ⟨r, d, hpath, hroot, hrn, hd⟩ := wf_grounded hwf x hx
  have hdk : d ≤ k := by omega
  obtain ⟨_, h2, h3⟩ := find_spec hpath hroot hdk
  intro i hi
  obtain ⟨hrankb, hcase⟩ := hwf i hi
  obtain ⟨hfr, _, _⟩ := find_frame k f x i
  refine ⟨by rw [hfr]; exact hrankb, ?_⟩
  by_cases hmem : i ∈ pathTo k f x
  · refine Or.inr ⟨r, h2 i hmem, hrn, ?_⟩
    obtain ⟨v, hv1, hv⟩ := mem_pathTo_rooted hpath hroot hmem
    obtain ⟨_, hvr⟩ := wf_path_facts hwf hv hi
    obtain ⟨hfrr, _, _⟩ := find_frame k f x r
    rw [hfr, hfrr]
    omega
  · rw [h3 i hmem]
    rcases hcase with hnone | ⟨p, hp, hpn, hpr⟩
    · exact Or.inl hnone
    · obtain ⟨hfrp, _, _⟩ := find_frame k f x p
      exact Or.inr ⟨p, hp, hpn, by rw [hfrp]; exact hpr⟩

/-- Attaching a strictly lower-ranked root under a higher-ranked one
preserves well-formedness. -/
theorem attach_wf {U : Type} {n : Nat} {f2 : Forest U} {w l : Nat} (hwf : WF n f2)
    (hw : w < n) (hrank : (f2 l).rank_ < (f2 w).rank_) :
    WF n (upd f2 l { f2 l with parent_ := some w }) := by
  have hr : ∀ j, ((upd f2 l { f2 l with parent_ := some w }) j).rank_ = (f2 j).rank_ := by
    intro j
    by_cases hj : j = l
    · rw [hj, upd_self]
    · rw [upd_other _ _ hj]
  intro i hi
  refine ⟨by rw [hr i]; exact (hwf i hi).1, ?_⟩
  by_cases hil : i = l
  · refine Or.inr ⟨w, ?_, hw, ?_⟩
    · rw [hil, upd_self]
    · rw [hr i, hr w, hil]
      exact hrank
  · rw [upd_other _ _ hil]
    rcases (hwf i hi).2 with hnone | ⟨p, hp, hpn, hpr⟩
    · exact Or.inl hnone
    · exact Or.inr ⟨p, hp, hpn, by rw [hr p]; exact hpr⟩

/-- `uniteCore` preserves well-formedness when it does not report overflow. -/
theorem uniteCore_wf {U : Type} {n : Nat} {f2 : Forest U} {xr yr : Nat}
    (hwf : WF n f2) (hxr : isRoot f2 xr) (hyr : isRoot f2 yr)
    (hxn : xr < n) (hyn : yr < n)
    (he : (uniteCore f2 xr yr).2 = false) : WF n (uniteCore f2 xr yr).1 := by
  by_cases h1 : (f2 xr).rank_ > (f2 yr).rank_
  · rw [uniteCore_gt_fst h1]
    exact attach_wf hwf hxn h1
  · by_cases h2 : (f2 xr).rank_ < (f2 yr).rank_
    · rw [uniteCore_lt_fst h2]
      exact attach_wf hwf hyn h2
    · have heq : (f2 xr).rank_ = (f2 yr).rank_ := by omega
      by_cases h3 : xr = yr
      · subst h3
        rw [uniteCore_same_fst]
        exact hwf
      · by_cases h4 : (f2 xr).rank_ = RANK_MAX
        · rw [uniteCore_eq_max_snd heq h3 h4] at he
          exact absurd he (by decide)
        · rw [uniteCore_eq_inc_fst heq h3 h4]
          have hyx : yr ≠ xr := Ne.symm h3
          have hr1 : ∀ j, j ≠ xr →
              ((upd (upd f2 yr { f2 yr with parent_ := some xr }) xr
                { f2 xr with rank_ := (f2 xr).rank_ + 1 }) j).rank_ = (f2 j).rank_ := by
            intro j hj
            rw [upd_other _ _ hj]
            by_cases hjy : j = yr
            · rw [hjy, upd_self]
            · rw [upd_other _ _ hjy]
          have hrx2 : ((upd (upd f2 yr { f2 yr with parent_ := some xr }) xr
              { f2 xr with rank_ := (f2 xr).rank_ + 1 }) xr).rank_ = (f2 xr).rank_ + 1 := by
            rw [upd_self]
          have hpyr : ((upd (upd f2 yr { f2 yr with parent_ := some xr }) xr
              { f2 xr with rank_ := (f2 xr).rank_ + 1 }) yr).parent_ = some xr := by
            rw [upd_other _ _ hyx, upd_self]
          have hp1 : ∀ j, j ≠ yr →
              ((upd (upd f2 yr { f2 yr with parent_ := some xr }) xr
                { f2 xr with rank_ := (f2 xr).rank_ + 1 }) j).parent_ = (f2 j).parent_ := by
            intro j hj
            by_cases hjx : j = xr
            · rw [hjx, upd_self]
            · rw [upd_other _ _ hjx, upd_other _ _ hj]
          have hmaxb : (f2 xr).rank_ < RANK_MAX := by
            have := (hwf xr hxn).1
            omega
          intro i hi
          constructor
          · by_cases hix : i = xr
            · rw [hix, hrx2]
              omega
            · rw [hr1 i hix]
              exact (hwf i hi).1
          · by_cases hiy : i = yr
            · refine Or.inr ⟨xr, by rw [hiy]; exact hpyr, hxn, ?_⟩
              have hiyx : i ≠ xr := by rw [hiy]; exact hyx
              rw [hr1 i hiyx, hrx2, hiy]
              omega
            · by_cases hix : i = xr
              · refine Or.inl ?_
                rw [hp1 i hiy, hix]
                exact hxr
              · rw [hp1 i hiy]
                rcases (hwf i hi).2 with hnone | ⟨p, hp, hpn, hpr⟩
                · exact Or.inl hnone
                · refine Or.inr ⟨p, hp, hpn, ?_⟩
                  rw [hr1 i hix]
                  by_cases hpx : p = xr
                  · rw [hpx, hrx2]
                    rw [hpx] at hpr
                    omega
                  · rw [hr1 p hpx]
                    exact hpr

/-- A non-failing `unite` preserves well-formedness. -/
theorem unite_wf {U : Type} {n k : Nat} {f : Forest U} {x y : Nat}
    (hwf : WF n f) (hx : x < n) (hy : y < n) (hk : RANK_MAX ≤ k)
    (he : (unite k f x y).2 = false) : WF n (unite k f x y).1 := by
  obtain ⟨xr, dx, hxpath, hxroot, hxn, hdx⟩ := wf_grounded hwf x hx
  obtain ⟨yr, dy, hypath, hyroot, hyn, hdy⟩ := wf_grounded hwf y hy
  have hdxk : dx ≤ k := by omega
  have hdyk : dy ≤ k := by omega
  obtain ⟨hu, hrx2, hry2, _, _, _, _⟩ :=
    unite_setup hxpath hxroot hdxk hypath hyroot hdyk
  have hwf1 : WF n (find k f x).1 := find_wf hwf hx hk
  have hwf2 : WF n (find k (find k f x).1 y).1 := find_wf hwf1 hy hk
  rw [hu]
  rw [hu] at he
  exact uniteCore_wf hwf2 hrx2 hry2 hxn hyn he

theorem initF_wf {U : Type} (u0 : U) (n : Nat) : WF n (initF u0) := by
  intro x _
  refine ⟨?_, Or.inl rfl⟩
  show (0 : Nat) ≤ RANK_MAX
  decide

/-- Well-formedness is preserved along any in-range, non-throwing operation
sequence. -/
theorem runOps_wf {U : Type} {n : Nat} :
    ∀ (l : List OpU) (f : Forest U), WF n f → opsInB n l = true →
      opsOkB f l = true → WF n (runOps f l) := by
  intro l
  induction l with
  | nil => intro f hwf _ _; exact hwf
  | cons op l ih =>
    intro f hwf hin hok
    cases op with
    | findOp x =>
      rw [opsInB] at hin
      rw [opsOkB] at hok
      simp only [Bool.and_eq_true, decide_eq_true_eq] at hin hok
      exact ih _ (find_wf hwf hin.1 (by rw [FUEL]; omega)) hin.2 hok.2
    | uniteOp x y =>
      rw [opsInB] at hin
      rw [opsOkB] at hok
      simp only [Bool.and_eq_true, decide_eq_true_eq, Bool.not_eq_true'] at hin hok
      exact ih _ (unite_wf hwf hin.1.1 hin.1.2 (by rw [FUEL]; omega) hok.1) hin.2 hok.2

/-- No operation sequence ever changes a label field. -/
theorem runOps_label_frame {U : Type} :
    ∀ (l : List OpU) (f : Forest U) (i : Nat),
      ((runOps f l) i).hasLabel_ = (f i).hasLabel_ ∧
      ((runOps f l) i).label_ = (f i).label_ := by
  intro l
  induction l with
  | nil => intro f i; exact ⟨rfl, rfl⟩
  | cons op l ih =>
    intro f i
    obtain ⟨ih1, ih2⟩ := ih (runOp f op) i
    cases op with
    | findOp x =>
      obtain ⟨_, hf1, hf2⟩ := find_frame FUEL f x i
      exact ⟨ih1.trans hf1, ih2.trans hf2⟩
    | uniteOp x y =>
      obtain ⟨hu1, hu2⟩ := unite_label_frame FUEL f x y i
      exact ⟨ih1.trans hu1, ih2.trans hu2⟩

/-! ## Claim theorems for the `Set` class -/

/-- C3: for every node `x` of a forest in which `x`'s parent walk terminates
(at root `r`, in `d` steps, with fuel covering the walk), `find` returns the
root of `x`'s tree — the unique ancestor with null parent —, changes no
component memberships, repoints exactly the visited nodes to the returned
root, leaves all other nodes untouched, and afterwards every visited node
reaches the root in one parent step. -/
theorem claim_C3 {U : Type} {k : Nat} {f : Forest U} {x r d : Nat}
    (h : PathD f x r d) (hr : isRoot f r) (hd : d ≤ k) :
    (find k f x).2 = r ∧
    (∀ r', RootedAt f x r' → r' = r) ∧
    (∀ j s, RootedAt (find k f x).1 j s ↔ RootedAt f j s) ∧
    (∀ j, j ∈ pathTo k f x → ((find k f x).1 j).parent_ = some r) ∧
    (∀ j, j ∉ pathTo k f x → (find k f x).1 j = f j) ∧
    isRoot (find k f x).1 r ∧
    (∀ j, j ∈ pathTo k f x → PathD (find k f x).1 j r 1) := by
  obtain ⟨h1, h2, h3⟩ := find_spec h hr hd
  refine ⟨h1, ?_, find_sameRoot h hr hd, h2, h3, find_preserves_root hr, ?_⟩
  · intro r' hr'
    exact rootedAt_unique hr' ⟨d, h, hr⟩
  · intro j hj
    exact PathD.step (h2 j hj) (PathD.refl r)

theorem claim_C3_witness :
    PathD cexChain 2 0 2 ∧ isRoot cexChain 0 ∧ 2 ≤ 2 ∧
    ((find 2 cexChain 2).2 = 0 ∧
     (∀ r', RootedAt cexChain 2 r' → r' = 0) ∧
     (∀ j s, RootedAt (find 2 cexChain 2).1 j s ↔ RootedAt cexChain j s) ∧
     (∀ j, j ∈ pathTo 2 cexChain 2 → ((find 2 cexChain 2).1 j).parent_ = some 0) ∧
     (∀ j, j ∉ pathTo 2 cexChain 2 → (find 2 cexChain 2).1 j = cexChain j) ∧
     isRoot (find 2 cexChain 2).1 0 ∧
     (∀ j, j ∈ pathTo 2 cexChain 2 → PathD (find 2 cexChain 2).1 j 0 1)) := by
  have e1 : (cexChain 2).parent_ = some 1 := by decide
  have e2 : (cexChain 1).parent_ = some 0 := by decide
  have hpath : PathD cexChain 2 0 2 := PathD.step e1 (PathD.step e2 (PathD.refl 0))
  exact ⟨hpath, by decide, by decide, claim_C3 hpath (by decide) (by decide)⟩

/-- C2 (amended): `unite` merges the components containing `x` and `y`.
It finds both roots (path compression included); if the ranks differ the
lower-rank root is attached under the higher-rank root and no rank changes;
if the ranks are equal, the roots are distinct and the shared rank is below
`RANK_MAX`, `y`'s root is attached under `x`'s root and the surviving root's
rank is incremented; if the shared rank equals `RANK_MAX` the attach still
happens but the increment is abandoned with the overflow error; if the roots
are identical, nothing changes beyond the path compression of the two
`find` calls. -/
theorem claim_C2 {U : Type} {k : Nat} {f : Forest U} {x y xr yr dx dy : Nat}
    (hx : PathD f x xr dx) (hrx : isRoot f xr) (hdx : dx ≤ k)
    (hy : PathD f y yr dy) (hry : isRoot f yr) (hdy : dy ≤ k) :
    sameRoot (unite k f x y).1 x y ∧
    ((f xr).rank_ > (f yr).rank_ →
      (unite k f x y).2 = false ∧
      ((unite k f x y).1 yr).parent_ = some xr ∧
      (∀ i, ((unite k f x y).1 i).rank_ = (f i).rank_)) ∧
    ((f xr).rank_ < (f yr).rank_ →
      (unite k f x y).2 = false ∧
      ((unite k f x y).1 xr).parent_ = some yr ∧
      (∀ i, ((unite k f x y).1 i).rank_ = (f i).rank_)) ∧
    ((f xr).rank_ = (f yr).rank_ → xr ≠ yr → (f xr).rank_ ≠ RANK_MAX →
      (unite k f x y).2 = false ∧
      ((unite k f x y).1 yr).parent_ = some xr ∧
      ((unite k f x y).1 xr).rank_ = (f xr).rank_ + 1 ∧
      (∀ i, i ≠ xr → ((unite k f x y).1 i).rank_ = (f i).rank_)) ∧
    ((f xr).rank_ = (f yr).rank_ → xr ≠ yr → (f xr).rank_ = RANK_MAX →
      (unite k f x y).2 = true ∧
      ((unite k f x y).1 yr).parent_ = some xr ∧
      (∀ i, ((unite k f x y).1 i).rank_ = (f i).rank_)) ∧
    (xr = yr →
      (unite k f x y).2 = false ∧
      (∀ i, (unite k f x y).1 i = (find k (find k f x).1 y).1 i)) := by
  obtain ⟨c1, c2, c3, c4, c5⟩ := unite_facts hx hrx hdx hy hry hdy
  refine ⟨?_, c1, c2, c3, c4, c5⟩
  rw [unite_sameRoot hx hrx hdx hy hry hdy x y]
  exact Or.inr (Or.inl ⟨⟨xr, ⟨dx, hx, hrx⟩, ⟨dx, hx, hrx⟩⟩,
    ⟨yr, ⟨dy, hy, hry⟩, ⟨dy, hy, hry⟩⟩⟩)

/-- C2 counterexample: the claim's "if the roots are identical, the forest
is left unchanged (no-op)" is false on the code.  In the chain `2 → 1 → 0`,
`unite(node 2, node 2)` has identical roots for both arguments, yet the
embedded path compression of the `find` calls rewrites node 2's parent from
node 1 to the root 0, so the forest is changed. -/
theorem claim_C2_counterexample :
    sameRoot cexChain 2 2 ∧
    (unite FUEL cexChain 2 2).1 2 ≠ cexChain 2 := by
  have e1 : (cexChain 2).parent_ = some 1 := by decide
  have e2 : (cexChain 1).parent_ = some 0 := by decide
  have hpath : PathD cexChain 2 0 2 := PathD.step e1 (PathD.step e2 (PathD.refl 0))
  refine ⟨⟨0, ⟨2, hpath, by decide⟩, ⟨2, hpath, by decide⟩⟩, ?_⟩
  decide

theorem claim_C2_witness :
    PathD cexMax 0 0 0 ∧ isRoot cexMax 0 ∧ (0 : Nat) ≤ FUEL ∧
    PathD cexMax 1 1 0 ∧ isRoot cexMax 1 ∧
    sameRoot (unite FUEL cexMax 0 1).1 0 1 ∧
    ((cexMax 0).rank_ = (cexMax 1).rank_ → (0 : Nat) ≠ 1 →
      (cexMax 0).rank_ = RANK_MAX →
      (unite FUEL cexMax 0 1).2 = true ∧
      ((unite FUEL cexMax 0 1).1 1).parent_ = some 0 ∧
      (∀ i, ((unite FUEL cexMax 0 1).1 i).rank_ = (cexMax i).rank_)) := by
  have h := claim_C2 (PathD.refl 0) (show isRoot cexMax 0 by decide)
    (Nat.zero_le FUEL) (PathD.refl 1) (show isRoot cexMax 1 by decide)
    (Nat.zero_le FUEL)
  exact ⟨PathD.refl 0, by decide, Nat.zero_le FUEL, PathD.refl 1, by decide,
    h.1, h.2.2.2.2.1⟩

/-- The exact failure condition of `unite` (helper shared by the
error-handling results). -/
theorem unite_err_iff {U : Type} {k : Nat} {f : Forest U} {x y xr yr dx dy : Nat}
    (hx : PathD f x xr dx) (hrx : isRoot f xr) (hdx : dx ≤ k)
    (hy : PathD f y yr dy) (hry : isRoot f yr) (hdy : dy ≤ k) :
    (unite k f x y).2 = true ↔
      (xr ≠ yr ∧ (f xr).rank_ = (f yr).rank_ ∧ (f xr).rank_ = RANK_MAX) := by
  obtain ⟨c1, c2, c3, c4, c5⟩ := unite_facts hx hrx hdx hy hry hdy
  constructor
  · intro he
    by_cases h3 : xr = yr
    · rw [(c5 h3).1] at he; cases he
    · by_cases h1 : (f xr).rank_ > (f yr).rank_
      · rw [(c1 h1).1] at he; cases he
      · by_cases h2 : (f xr).rank_ < (f yr).rank_
        · rw [(c2 h2).1] at he; cases he
        · have heq : (f xr).rank_ = (f yr).rank_ := by omega
          by_cases h4 : (f xr).rank_ = RANK_MAX
          · exact ⟨h3, heq, h4⟩
          · rw [(c3 heq h3 h4).1] at he; cases he
  · rintro ⟨h3, heq, h4⟩
    exact (c4 heq h3 h4).1

/-- C4: `unite` throws the capacity-overflow exception iff the two roots
are distinct, their ranks are equal and that rank is the maximum of the
rank counter type (`RANK_MAX`, the `unsigned short` maximum); in every
other case it completes without error. -/
theorem claim_C4 {U : Type} {k : Nat} {f : Forest U} {x y xr yr dx dy : Nat}
    (hx : PathD f x xr dx) (hrx : isRoot f xr) (hdx : dx ≤ k)
    (hy : PathD f y yr dy) (hry : isRoot f yr) (hdy : dy ≤ k) :
    (unite k f x y).2 = true ↔
      (xr ≠ yr ∧ (f xr).rank_ = (f yr).rank_ ∧ (f xr).rank_ = RANK_MAX) :=
  unite_err_iff hx hrx hdx hy hry hdy

theorem claim_C4_witness :
    PathD cexMax 0 0 0 ∧ isRoot cexMax 0 ∧ (0 : Nat) ≤ FUEL ∧
    PathD cexMax 1 1 0 ∧ isRoot cexMax 1 ∧
    ((unite FUEL cexMax 0 1).2 = true ↔
      ((0 : Nat) ≠ 1 ∧ (cexMax 0).rank_ = (cexMax 1).rank_ ∧
       (cexMax 0).rank_ = RANK_MAX)) := by
  exact ⟨PathD.refl 0, by decide, Nat.zero_le FUEL, PathD.refl 1, by decide,
    claim_C4 (PathD.refl 0) (by decide) (Nat.zero_le FUEL) (PathD.refl 1)
      (by decide) (Nat.zero_le FUEL)⟩

/-- C10: a failing `unite` is not atomic.  When the overflow exception is
thrown, `y`'s root has already been attached under `x`'s root: the two
components are merged in the resulting forest (which persists, since the
heap writes precede the throw), while no rank was incremented. -/
theorem claim_C10 {U : Type} {k : Nat} {f : Forest U} {x y xr yr dx dy : Nat}
    (hx : PathD f x xr dx) (hrx : isRoot f xr) (hdx : dx ≤ k)
    (hy : PathD f y yr dy) (hry : isRoot f yr) (hdy : dy ≤ k)
    (he : (unite k f x y).2 = true) :
    ((unite k f x y).1 yr).parent_ = some xr ∧
    sameRoot (unite k f x y).1 x y ∧
    (∀ i, ((unite k f x y).1 i).rank_ = (f i).rank_) := by
  obtain ⟨c1, c2, c3, c4, c5⟩ := unite_facts hx hrx hdx hy hry hdy
  have hcond : xr ≠ yr ∧ (f xr).rank_ = (f yr).rank_ ∧ (f xr).rank_ = RANK_MAX := by
    rw [← unite_err_iff hx hrx hdx hy hry hdy]
    exact he
  obtain ⟨h3, heq, h4⟩ := hcond
  obtain ⟨_, hpar, hranks⟩ := c4 heq h3 h4
  refine ⟨hpar, ?_, hranks⟩
  rw [unite_sameRoot hx hrx hdx hy hry hdy x y]
  exact Or.inr (Or.inl ⟨⟨xr, ⟨dx, hx, hrx⟩, ⟨dx, hx, hrx⟩⟩,
    ⟨yr, ⟨dy, hy, hry⟩, ⟨dy, hy, hry⟩⟩⟩)


theorem claim_C10_witness :
    PathD cexMax 0 0 0 ∧ isRoot cexMax 0 ∧ (0 : Nat) ≤ FUEL ∧
    PathD cexMax 1 1 0 ∧ isRoot cexMax 1 ∧
    (unite FUEL cexMax 0 1).2 = true ∧
    (((unite FUEL cexMax 0 1).1 1).parent_ = some 0 ∧
     sameRoot (unite FUEL cexMax 0 1).1 0 1 ∧
     (∀ i, ((unite FUEL cexMax 0 1).1 i).rank_ = (cexMax i).rank_)) := by
  refine ⟨PathD.refl 0, by decide, Nat.zero_le FUEL, PathD.refl 1, by decide,
    by decide, ?_⟩
  exact claim_C10 (PathD.refl 0) (by decide) (Nat.zero_le FUEL) (PathD.refl 1)
    (by decide) (Nat.zero_le FUEL) (by decide)

/-- C6: in every forest reachable from the all-roots initial state (every
node rank 0, no parent) by a sequence of in-range `find` and non-failing
`unite` operations, the rank of a component's root is at least the rank of
every node of that component. -/
theorem claim_C6 {U : Type} (n : Nat) (u0 : U) (l : List OpU)
    (hin : opsInB n l = true) (hok : opsOkB (initF u0) l = true) :
    ∀ x r, x < n → RootedAt (runOps (initF u0) l) x r →
      ((runOps (initF u0) l) x).rank_ ≤ ((runOps (initF u0) l) r).rank_ := by
  have hwf := runOps_wf l (initF u0) (initF_wf u0 n) hin hok
  intro x r hx hr
  obtain ⟨d, hp, _⟩ := hr
  obtain ⟨_, hle⟩ := wf_path_facts hwf hp hx
  omega

theorem claim_C6_witness :
    opsInB 2 [OpU.uniteOp 0 1] = true ∧
    opsOkB (initF (0 : Nat)) [OpU.uniteOp 0 1] = true ∧
    (1 : Nat) < 2 ∧
    RootedAt (runOps (initF (0 : Nat)) [OpU.uniteOp 0 1]) 1 0 ∧
    ((runOps (initF (0 : Nat)) [OpU.uniteOp 0 1]) 1).rank_ ≤
      ((runOps (initF (0 : Nat)) [OpU.uniteOp 0 1]) 0).rank_ := by
  have e1 : ((runOps (initF (0 : Nat)) [OpU.uniteOp 0 1]) 1).parent_ = some 0 := by
    decide
  have hroot : RootedAt (runOps (initF (0 : Nat)) [OpU.uniteOp 0 1]) 1 0 :=
    ⟨1, PathD.step e1 (PathD.refl 0), by decide⟩
  exact ⟨by decide, by decide, by decide, hroot,
    claim_C6 2 0 [OpU.uniteOp 0 1] (by decide) (by decide) 1 0 (by decide) hroot⟩

/-- C8: neither `find` nor `unite` (with any fuel, on any forest) writes the
`hasLabel_` or `label_` field of any node, and consequently after any
sequence of `find`/`unite` operations every node's label state equals its
initial label state. -/
theorem claim_C8 {U : Type} (k : Nat) (f : Forest U) (x y i : Nat) :
    (((find k f x).1 i).hasLabel_ = (f i).hasLabel_ ∧
     ((find k f x).1 i).label_ = (f i).label_) ∧
    (((unite k f x y).1 i).hasLabel_ = (f i).hasLabel_ ∧
     ((unite k f x y).1 i).label_ = (f i).label_) ∧
    (∀ l : List OpU, ((runOps f l) i).hasLabel_ = (f i).hasLabel_ ∧
     ((runOps f l) i).label_ = (f i).label_) := by
  obtain ⟨_, hf1, hf2⟩ := find_frame k f x i
  exact ⟨⟨hf1, hf2⟩, unite_label_frame k f x y i, fun l => runOps_label_frame l f i⟩

/-! ## Geometry of the volume: `lin`, `unlin`, scan order, neighbors -/

theorem lin_lt {w h d : Nat} {c : Vox} (hc : inBounds w h d c) :
    lin w h c < w * h * d := by
  obtain ⟨h1, h2, h3⟩ := hc
  show c.2.2 * w * h + c.2.1 * w + c.1 < w * h * d
  have s1 : c.2.1 * w + c.1 < h * w := by
    have hle : (c.2.1 + 1) * w ≤ h * w := Nat.mul_le_mul_right w h2
    rw [Nat.succ_mul] at hle
    omega
  have s2 : c.2.2 * w * h + h * w ≤ w * h * d := by
    have e : c.2.2 * w * h + h * w = (c.2.2 + 1) * (w * h) := by ring
    rw [e]
    have hle : (c.2.2 + 1) * (w * h) ≤ d * (w * h) := Nat.mul_le_mul_right (w * h) h3
    rw [Nat.mul_comm d (w * h)] at hle
    exact hle
  omega

theorem unlin_lin {w h d : Nat} {c : Vox} (hc : inBounds w h d c) :
    unlin w h (lin w h c) = c := by
  obtain ⟨u, v, ww⟩ := c
  obtain ⟨h1, h2, _⟩ := hc
  have hw : 0 < w := by omega
  have hh : 0 < h := by omega
  have e0 : lin w h (u, v, ww) = u + w * (v + h * ww) := by
    show ww * w * h + v * w + u = u + w * (v + h * ww)
    ring
  have em : (u + w * (v + h * ww)) % w = u := by
    rw [Nat.add_mul_mod_self_left]
    exact Nat.mod_eq_of_lt h1
  have ed : (u + w * (v + h * ww)) / w = v + h * ww := by
    rw [Nat.add_mul_div_left u (v + h * ww) hw, Nat.div_eq_of_lt h1]
    omega
  have em2 : (v + h * ww) % h = v := by
    rw [Nat.add_mul_mod_self_left]
    exact Nat.mod_eq_of_lt h2
  have esmall : u + w * v < w * h := by
    have hle : w * (v + 1) ≤ w * h := Nat.mul_le_mul_left w h2
    rw [Nat.mul_succ] at hle
    omega
  have ed2 : (u + w * (v + h * ww)) / (w * h) = ww := by
    have e1 : u + w * (v + h * ww) = (u + w * v) + (w * h) * ww := by ring
    rw [e1, Nat.add_mul_div_left _ ww (Nat.mul_pos hw hh), Nat.div_eq_of_lt esmall]
    omega
  show unlin w h (lin w h (u, v, ww)) = (u, v, ww)
  rw [e0]
  show ((u + w * (v + h * ww)) % w, (u + w * (v + h * ww)) / w % h,
    (u + w * (v + h * ww)) / (w * h)) = (u, v, ww)
  rw [em, ed, em2, ed2]

theorem lin_inj {w h d : Nat} {a b : Vox} (ha : inBounds w h d a)
    (hb : inBounds w h d b) (he : lin w h a = lin w h b) : a = b := by
  rw [← unlin_lin ha, ← unlin_lin hb, he]

theorem dims_pos {w h d i : Nat} (hi : i < w * h * d) : 0 < w ∧ 0 < h ∧ 0 < d := by
  rcases Nat.eq_zero_or_pos w with h0 | hw
  · subst h0; simp at hi
  rcases Nat.eq_zero_or_pos h with h0 | hh
  · subst h0; simp at hi
  rcases Nat.eq_zero_or_pos d with h0 | hd
  · subst h0; simp at hi
  exact ⟨hw, hh, hd⟩

theorem unlin_inBounds {w h d i : Nat} (hi : i < w * h * d) :
    inBounds w h d (unlin w h i) := by
  obtain ⟨hw, hh, hd⟩ := dims_pos hi
  refine ⟨Nat.mod_lt i hw, ?_, ?_⟩
  · exact Nat.mod_lt _ hh
  · exact Nat.div_lt_of_lt_mul hi

theorem lin_unlin (w h i : Nat) :
    lin w h (unlin w h i) = i := by
  show i / (w * h) * w * h + i / w % h * w + i % w = i
  have A : w * h * (i / (w * h)) + i % (w * h) = i := Nat.div_add_mod i (w * h)
  have B : i % (w * h) = i % w + w * (i / w % h) := Nat.mod_mul
  have e1 : i / (w * h) * w * h = w * h * (i / (w * h)) := by ring
  have e2 : i / w % h * w = w * (i / w % h) := by ring
  rw [e1, e2]
  omega

/-- The nested scan loops enumerate exactly the arena indices in increasing
order. -/
theorem voxList_eq (w h d : Nat) :
    voxList w h d = (List.range (w * h * d)).map (unlin w h) := by
  have slice : ∀ (hh : Nat) (ww : Nat),
      (List.range hh).flatMap (fun v => (List.range w).map (fun u => (u, v, ww))) =
      (List.range (w * hh)).map (fun j => ((j % w, j / w, ww) : Vox)) := by
    intro hh ww
    induction hh with
    | zero => simp
    | succ hh ih =>
      rw [List.range_succ, List.flatMap_append, ih, Nat.mul_succ, List.range_add,
        List.map_append, List.map_map]
      congr 1
      simp only [List.flatMap_cons, List.flatMap_nil, List.append_nil]
      refine List.map_congr_left ?_
      intro u hu
      rw [List.mem_range] at hu
      have em : (w * hh + u) % w = u := by
        rw [Nat.add_comm, Nat.add_mul_mod_self_left]
        exact Nat.mod_eq_of_lt hu
      have ed : (w * hh + u) / w = hh := by
        rw [Nat.add_comm, Nat.add_mul_div_left u hh (by omega), Nat.div_eq_of_lt hu]
        omega
      show ((u, hh, ww) : Vox) = ((w * hh + u) % w, (w * hh + u) / w, ww)
      rw [em, ed]
  show (List.range d).flatMap (fun ww => (List.range h).flatMap
      (fun v => (List.range w).map (fun u => (u, v, ww)))) =
    (List.range (w * h * d)).map (unlin w h)
  induction d with
  | zero => simp
  | succ d ih =>
    rw [List.range_succ, List.flatMap_append, ih, Nat.mul_succ, List.range_add,
      List.map_append, List.map_map]
    congr 1
    simp only [List.flatMap_cons, List.flatMap_nil, List.append_nil]
    rw [slice h d]
    refine List.map_congr_left ?_
    intro j hj
    rw [List.mem_range] at hj
    have hw : 0 < w := by
      rcases Nat.eq_zero_or_pos w with h0 | hw
      · subst h0; simp at hj
      · exact hw
    have hh : 0 < h := by
      rcases Nat.eq_zero_or_pos h with h0 | hh
      · subst h0; simp at hj
      · exact hh
    have hjw : j / w < h := Nat.div_lt_of_lt_mul hj
    have em : (w * h * d + j) % w = j % w := by
      have e : w * h * d + j = j + w * (h * d) := by ring
      rw [e, Nat.add_mul_mod_self_left]
    have ed1 : (w * h * d + j) / w = j / w + h * d := by
      have e : w * h * d + j = j + w * (h * d) := by ring
      rw [e, Nat.add_mul_div_left _ _ hw]
    have em2 : (j / w + h * d) % h = j / w := by
      rw [Nat.add_mul_mod_self_left]
      exact Nat.mod_eq_of_lt hjw
    have ed2 : (w * h * d + j) / (w * h) = d := by
      have e : w * h * d + j = j + (w * h) * d := by ring
      rw [e, Nat.add_mul_div_left _ _ (Nat.mul_pos hw hh), Nat.div_eq_of_lt hj]
      omega
    show ((j % w, j / w, d) : Vox) = ((w * h * d + j) % w, (w * h * d + j) / w % h,
      (w * h * d + j) / (w * h))
    rw [em, ed1, em2, ed2]

theorem faceAdj_symm {a b : Vox} (h : faceAdj a b) : faceAdj b a := by
  rcases h with ⟨e1, e2, e3 | e3⟩ | ⟨e1, e2, e3 | e3⟩ | ⟨e1, e2, e3 | e3⟩
  · exact Or.inl ⟨e1.symm, e2.symm, Or.inr e3⟩
  · exact Or.inl ⟨e1.symm, e2.symm, Or.inl e3⟩
  · exact Or.inr (Or.inl ⟨e1.symm, e2.symm, Or.inr e3⟩)
  · exact Or.inr (Or.inl ⟨e1.symm, e2.symm, Or.inl e3⟩)
  · exact Or.inr (Or.inr ⟨e1.symm, e2.symm, Or.inr e3⟩)
  · exact Or.inr (Or.inr ⟨e1.symm, e2.symm, Or.inl e3⟩)

/-- Membership in the backward-neighbor list, componentwise. -/
theorem mem_neighborsOf {c nb : Vox} :
    nb ∈ neighborsOf c ↔
      ((0 < c.2.2 ∧ nb = (c.1, c.2.1, c.2.2 - 1)) ∨
       (0 < c.1 ∧ nb = (c.1 - 1, c.2.1, c.2.2)) ∨
       (0 < c.2.1 ∧ nb = (c.1, c.2.1 - 1, c.2.2))) := by
  unfold neighborsOf
  rw [List.mem_append, List.mem_append]
  constructor
  · rintro ((hb | hb) | hb)
    · by_cases hc : 0 < c.2.2
      · rw [if_pos hc] at hb
        exact Or.inl ⟨hc, List.mem_singleton.mp hb⟩
      · rw [if_neg hc] at hb
        exact absurd hb (List.not_mem_nil nb)
    · by_cases hc : 0 < c.1
      · rw [if_pos hc] at hb
        exact Or.inr (Or.inl ⟨hc, List.mem_singleton.mp hb⟩)
      · rw [if_neg hc] at hb
        exact absurd hb (List.not_mem_nil nb)
    · by_cases hc : 0 < c.2.1
      · rw [if_pos hc] at hb
        exact Or.inr (Or.inr ⟨hc, List.mem_singleton.mp hb⟩)
      · rw [if_neg hc] at hb
        exact absurd hb (List.not_mem_nil nb)
  · rintro (⟨hpos, rfl⟩ | ⟨hpos, rfl⟩ | ⟨hpos, rfl⟩)
    · exact Or.inl (Or.inl (by rw [if_pos hpos]; exact List.mem_singleton_self _))
    · exact Or.inl (Or.inr (by rw [if_pos hpos]; exact List.mem_singleton_self _))
    · exact Or.inr (by rw [if_pos hpos]; exact List.mem_singleton_self _)

/-- Every backward neighbor of an in-bounds voxel is in bounds, face
adjacent, and earlier in the scan order. -/
theorem neighborsOf_sound {w h d : Nat} {c nb : Vox} (hc : inBounds w h d c)
    (hnb : nb ∈ neighborsOf c) :
    inBounds w h d nb ∧ faceAdj nb c ∧ lin w h nb < lin w h c := by
  obtain ⟨h1, h2, h3⟩ := hc
  have hw : 0 < w := by omega
  have hh : 0 < h := by omega
  have hwh : 0 < w * h := Nat.mul_pos hw hh
  rcases mem_neighborsOf.mp hnb with ⟨hpos, rfl⟩ | ⟨hpos, rfl⟩ | ⟨hpos, rfl⟩
  · refine ⟨⟨h1, h2, show c.2.2 - 1 < d by omega⟩, ?_, ?_⟩
    · exact Or.inr (Or.inr ⟨rfl, rfl, Or.inl (show c.2.2 - 1 + 1 = c.2.2 by omega)⟩)
    · show (c.2.2 - 1) * w * h + c.2.1 * w + c.1 <
        c.2.2 * w * h + c.2.1 * w + c.1
      obtain ⟨t, ht⟩ : ∃ t, c.2.2 = t + 1 := ⟨c.2.2 - 1, by omega⟩
      rw [ht]
      have e1 : (t + 1 - 1) * w * h = t * (w * h) := by
        have : t + 1 - 1 = t := by omega
        rw [this]; ring
      have e2 : (t + 1) * w * h = t * (w * h) + w * h := by ring
      rw [e1, e2]
      omega
  · refine ⟨⟨show c.1 - 1 < w by omega, h2, h3⟩, ?_, ?_⟩
    · exact Or.inl ⟨rfl, rfl, Or.inl (show c.1 - 1 + 1 = c.1 by omega)⟩
    · show c.2.2 * w * h + c.2.1 * w + (c.1 - 1) <
        c.2.2 * w * h + c.2.1 * w + c.1
      omega
  · refine ⟨⟨h1, show c.2.1 - 1 < h by omega, h3⟩, ?_, ?_⟩
    · exact Or.inr (Or.inl ⟨rfl, rfl, Or.inl (show c.2.1 - 1 + 1 = c.2.1 by omega)⟩)
    · show c.2.2 * w * h + (c.2.1 - 1) * w + c.1 <
        c.2.2 * w * h + c.2.1 * w + c.1
      obtain ⟨t, ht⟩ : ∃ t, c.2.1 = t + 1 := ⟨c.2.1 - 1, by omega⟩
      rw [ht]
      have e1 : (t + 1 - 1) * w = t * w := by
        have : t + 1 - 1 = t := by omega
        rw [this]
      have e2 : (t + 1) * w = t * w + w := by ring
      rw [e1, e2]
      omega

/-- Conversely, a face-adjacent earlier (in scan order) in-bounds voxel is
among the backward neighbors. -/
theorem neighborsOf_complete {w h d : Nat} {a b : Vox} (ha : inBounds w h d a)
    (hb : inBounds w h d b) (hadj : faceAdj a b) (hlt : lin w h a < lin w h b) :
    a ∈ neighborsOf b := by
  obtain ⟨ha1, ha2, ha3⟩ := ha
  obtain ⟨hb1, hb2, hb3⟩ := hb
  have hla : lin w h a = a.2.2 * w * h + a.2.1 * w + a.1 := rfl
  have hlb : lin w h b = b.2.2 * w * h + b.2.1 * w + b.1 := rfl
  rw [hla, hlb] at hlt
  rcases hadj with ⟨e1, e2, e3 | e3⟩ | ⟨e1, e2, e3 | e3⟩ | ⟨e1, e2, e3 | e3⟩
  · -- a.1 + 1 = b.1 : a is the left neighbor of b
    refine mem_neighborsOf.mpr (Or.inr (Or.inl ⟨by omega, ?_⟩))
    have g1 : a.1 = b.1 - 1 := by omega
    exact Prod.ext g1 (Prod.ext e1 e2)
  · -- b.1 + 1 = a.1 : a is right of b, contradicting the scan order
    rw [e1, e2] at hlt
    omega
  · -- a.2.1 + 1 = b.2.1 : a is the up neighbor of b
    refine mem_neighborsOf.mpr (Or.inr (Or.inr ⟨by omega, ?_⟩))
    have g1 : a.2.1 = b.2.1 - 1 := by omega
    exact Prod.ext e1 (Prod.ext g1 e2)
  · -- b.2.1 + 1 = a.2.1 : below b, contradiction
    rw [e1, e2] at hlt
    have e4 : a.2.1 = b.2.1 + 1 := by omega
    rw [e4] at hlt
    have e5 : (b.2.1 + 1) * w = b.2.1 * w + w := by ring
    rw [e5] at hlt
    omega
  · -- a.2.2 + 1 = b.2.2 : a is the back neighbor of b
    refine mem_neighborsOf.mpr (Or.inl ⟨by omega, ?_⟩)
    have g1 : a.2.2 = b.2.2 - 1 := by omega
    exact Prod.ext e1 (Prod.ext e2 g1)
  · -- b.2.2 + 1 = a.2.2 : in front of b, contradiction
    rw [e1, e2] at hlt
    have e4 : a.2.2 = b.2.2 + 1 := by omega
    rw [e4] at hlt
    have e5 : (b.2.2 + 1) * w * h = b.2.2 * w * h + w * h := by ring
    rw [e5] at hlt
    omega

theorem faceAdj_irrefl (c : Vox) : ¬ faceAdj c c := by
  rintro (⟨_, _, e3 | e3⟩ | ⟨_, _, e3 | e3⟩ | ⟨_, _, e3 | e3⟩) <;> omega

namespace Conn

theorem ends {P : Vox → Prop} {a b : Vox} (h : Conn P a b) : P a ∧ P b := by
  induction h with
  | refl hp => exact ⟨hp, hp⟩
  | step _ _ hc ih => exact ⟨ih.1, hc⟩

theorem mono {P Q : Vox → Prop} (hpq : ∀ v, P v → Q v) {a b : Vox}
    (h : Conn P a b) : Conn Q a b := by
  induction h with
  | refl hp => exact Conn.refl (hpq _ hp)
  | step _ hadj hc ih => exact Conn.step ih hadj (hpq _ hc)

theorem trans {P : Vox → Prop} {a b c : Vox} (h1 : Conn P a b)
    (h2 : Conn P b c) : Conn P a c := by
  induction h2 with
  | refl _ => exact h1
  | step _ hadj hc ih => exact Conn.step ih hadj hc

theorem symm {P : Vox → Prop} {a b : Vox} (h : Conn P a b) : Conn P b a := by
  induction h with
  | refl hp => exact Conn.refl hp
  | @step b c hab hadj hc ih =>
    exact Conn.trans (Conn.step (Conn.refl hc) (faceAdj_symm hadj) (hab.ends).2) ih

end Conn

/-! ## Claims C9 and C5 -/

theorem leVal_zeros (k : Nat) : leVal (zeros k) = 0 := by
  induction k with
  | zero => rfl
  | succ k ih =>
    show leVal (0 :: zeros k) = 0
    rw [leVal, ih]

/-- C9: the zero-filled arena buffer, reinterpreted as `Set<U>` nodes, is
observationally the array of default-constructed nodes.  Decoding all-zero
bytes — with any field byte counts, covering any layout/padding — yields
exactly the node the `Set()` constructor builds: a root (`parent_` null)
with rank 0, `hasLabel_` false and `label_ = U(0)`; hence the allocated
forest `fun _ => zeroNode` is pointwise the default-constructed array. -/
theorem claim_C9 :
    (∀ nr nl np : Nat,
      decodeSet (zeros nr) 0 (zeros nl) (zeros np) = mkSet 0) ∧
    zeroNode = mkSet 0 ∧
    (∀ i : Nat, (fun _ => zeroNode : Forest Nat) i = mkSet 0) ∧
    zeroNode.rank_ = 0 ∧ zeroNode.hasLabel_ = false ∧
    zeroNode.label_ = 0 ∧ zeroNode.parent_ = none := by
  have hdec : ∀ nr nl np : Nat,
      decodeSet (zeros nr) 0 (zeros nl) (zeros np) = mkSet 0 := by
    intro nr nl np
    unfold decodeSet mkSet
    rw [leVal_zeros, leVal_zeros, leVal_zeros]
    simp
  have hz : zeroNode = mkSet 0 := hdec 2 8 8
  refine ⟨hdec, hz, fun i => hz, ?_, ?_, ?_, ?_⟩ <;> rw [hz] <;> rfl


theorem voxList_zero {w h d : Nat} (hz : w * h * d = 0) : voxList w h d = [] := by
  rw [voxList_eq, hz]
  rfl

/-- C5 (amended): `findConnectedComponents3d` performs no precondition
validation.  The call proceeds straight to the arena allocation and the
scan; in particular a call with a zero dimension — a precondition-violating
call in the claim's sense — is not reported: it completes successfully,
leaving the output buffer untouched and returning an empty statistics list.
(Buffer validity and stride/leap adequacy are caller responsibility, spec §3.) -/
theorem claim_C5 {T : Type} [DecidableEq T] (width height depth : Nat)
    (inp : Vox → T) (bg : T) (out0 : Vox → Nat) (bgl : Nat)
    (h : width * height * depth = 0) :
    findConnectedComponents3d width height depth inp bg out0 bgl =
      Except.ok (out0, []) := by
  unfold findConnectedComponents3d
  rw [voxList_zero h]
  rfl

/-- C5 counterexample: the claim says precondition violations (here: a
non-positive dimension, width = 0) are reported at call entry; instead the
call completes without any error, returning the untouched output buffer and
an empty statistics list. -/
theorem claim_C5_counterexample :
    findConnectedComponents3d 0 3 3 (fun _ => (1 : Nat)) 0 (fun _ => 0) 7 =
      Except.ok (fun _ => 0, []) := rfl

theorem claim_C5_witness :
    0 * 5 * 5 = 0 ∧
    findConnectedComponents3d 0 5 5 (fun _ => (2 : Nat)) 0 (fun _ => 9) 7 =
      Except.ok (fun _ => 9, []) :=
  ⟨rfl, claim_C5 0 5 5 (fun _ => 2) 0 (fun _ => 9) 7 rfl⟩

/-! ## Fold decomposition lemmas for the two passes -/

theorem scanFold_append {T : Type} [DecidableEq T] (w h : Nat) (inp : Vox → T)
    (bg : T) : ∀ (l1 l2 : List Vox) (f : Forest Nat),
    scanFold w h inp bg f (l1 ++ l2) =
      (match scanFold w h inp bg f l1 with
       | Except.error e => Except.error e
       | Except.ok f' => scanFold w h inp bg f' l2) := by
  intro l1
  induction l1 with
  | nil => intro l2 f; rfl
  | cons c rest ih =>
    intro l2 f
    show scanFold w h inp bg f (c :: (rest ++ l2)) = _
    rw [scanFold]
    cases hsv : scanVoxel w h inp bg f c with
    | error e =>
      rw [scanFold, hsv]
    | ok f' =>
      rw [scanFold, hsv]
      exact ih l2 f'

theorem resolveFold_append {T : Type} [DecidableEq T] (w h : Nat) (inp : Vox → T)
    (bg : T) (bgl : Nat) : ∀ (l1 l2 : List Vox) (s : ResState T),
    resolveFold w h inp bg bgl s (l1 ++ l2) =
      resolveFold w h inp bg bgl (resolveFold w h inp bg bgl s l1) l2 := by
  intro l1
  induction l1 with
  | nil => intro l2 s; rfl
  | cons c rest ih =>
    intro l2 s
    show resolveFold w h inp bg bgl s (c :: (rest ++ l2)) = _
    rw [resolveFold, resolveFold, ih]

/-! ## Scan-phase correctness: forest components = prefix connectivity -/

theorem sameRoot_trans {U : Type} {f : Forest U} {a b c : Nat}
    (h1 : sameRoot f a b) (h2 : sameRoot f b c) : sameRoot f a c := by
  obtain ⟨r, ha, hb⟩ := h1
  obtain ⟨r', hb', hc⟩ := h2
  rw [rootedAt_unique hb hb'] at ha
  exact ⟨r', ha, hc⟩

theorem uniteE_ok {f f' : Forest Nat} {x y : Nat}
    (h : uniteE f x y = Except.ok f') :
    (unite FUEL f x y).2 = false ∧ f' = (unite FUEL f x y).1 := by
  unfold uniteE at h
  by_cases he : (unite FUEL f x y).2 = true
  · rw [if_pos he] at h
    cases h
  · rw [if_neg he] at h
    cases h
    refine ⟨?_, rfl⟩
    cases h2 : (unite FUEL f x y).2
    · rfl
    · exact absurd h2 he

theorem zeroForest_wf (n : Nat) : WF n (fun _ => zeroNode : Forest Nat) := by
  intro x _
  refine ⟨?_, Or.inl ?_⟩
  · show (0 : Nat) % (RANK_MAX + 1) ≤ RANK_MAX
    decide
  · rfl

theorem scanInv_zero {T : Type} [DecidableEq T] (w h d : Nat) (inp : Vox → T)
    (bg : T) : ScanInv w h d inp bg 0 (fun _ => zeroNode) := by
  refine ⟨zeroForest_wf _, ?_, ?_⟩
  · intro a b ha hb hs
    obtain ⟨r, ⟨da, pa, _⟩, ⟨db, pb, _⟩⟩ := hs
    have hza : r = lin w h a := by
      cases pa with
      | refl => rfl
      | step hp _ => exact absurd hp (by intro hc; cases hc)
    have hzb : r = lin w h b := by
      cases pb with
      | refl => rfl
      | step hp _ => exact absurd hp (by intro hc; cases hc)
    exact Or.inl (lin_inj ha hb (hza.symm.trans hzb))
  · intro a b ha _ _
    omega

/-- Effect of the inner neighbor-union fold on the invariant: components
only grow, every merge is justified by an edge to the current voxel, and
the current voxel ends up merged with each of its foreground neighbors in
the list. -/
theorem uniteNeighbors_inv {T : Type} [DecidableEq T] {w h d : Nat}
    {inp : Vox → T} {bg : T} {m : Nat} {c : Vox}
    (hcb : inBounds w h d c) (hfgc : inp c ≠ bg) (hlc : lin w h c = m) :
    ∀ (ns : List Vox) (f0 f : Forest Nat),
    (∀ nb ∈ ns, inBounds w h d nb ∧ faceAdj nb c ∧ lin w h nb < m) →
    WF (w * h * d) f0 →
    (∀ a b : Vox, inBounds w h d a → inBounds w h d b →
      sameRoot f0 (lin w h a) (lin w h b) →
      a = b ∨ Conn (fun v => inBounds w h d v ∧ inp v ≠ bg ∧ lin w h v < m + 1) a b) →
    uniteNeighbors w h inp bg c f0 ns = Except.ok f →
    (WF (w * h * d) f ∧
     (∀ a b : Vox, inBounds w h d a → inBounds w h d b →
       sameRoot f (lin w h a) (lin w h b) →
       a = b ∨ Conn (fun v => inBounds w h d v ∧ inp v ≠ bg ∧ lin w h v < m + 1) a b) ∧
     (∀ p q : Nat, sameRoot f0 p q → sameRoot f p q) ∧
     (∀ nb ∈ ns, inp nb ≠ bg → sameRoot f (lin w h c) (lin w h nb))) := by
  intro ns
  induction ns with
  | nil =>
    intro f0 f _ hwf hJ3 hok
    cases hok
    exact ⟨hwf, hJ3, fun p q hs => hs, by intro nb hnb; cases hnb⟩
  | cons nb rest ih =>
    intro f0 f hns hwf hJ3 hok
    have hnbf := hns nb (List.mem_cons_self nb rest)
    obtain ⟨hnbB, hnbAdj, hnbLt⟩ := hnbf
    rw [uniteNeighbors] at hok
    by_cases hfg : inp nb ≠ bg
    · rw [if_pos hfg] at hok
      cases hue : uniteE f0 (lin w h c) (lin w h nb) with
      | error e => rw [hue] at hok; cases hok
      | ok f1 =>
        rw [hue] at hok
        obtain ⟨hef, hf1⟩ := uniteE_ok hue
        have hcn : lin w h c < w * h * d := lin_lt hcb
        have hnn : lin w h nb < w * h * d := lin_lt hnbB
        obtain ⟨xr, dx, px, rx, _, hdx⟩ := wf_grounded hwf (lin w h c) hcn
        obtain ⟨yr, dy, py, ry, _, hdy⟩ := wf_grounded hwf (lin w h nb) hnn
        have hdx' : dx ≤ FUEL := by
          have : FUEL = RANK_MAX + 1 := rfl
          omega
        have hdy' : dy ≤ FUEL := by
          have : FUEL = RANK_MAX + 1 := rfl
          omega
        have hjoin := unite_sameRoot px rx hdx' py ry hdy'
        have hwf1 : WF (w * h * d) f1 := by
          rw [hf1]
          exact unite_wf hwf hcn hnn (by rw [FUEL]; omega) hef
        have hmono1 : ∀ p q : Nat, sameRoot f0 p q → sameRoot f1 p q := by
          intro p q hs
          rw [hf1, hjoin p q]
          exact Or.inl hs
        have hsRc : sameRoot f0 (lin w h c) (lin w h c) :=
          ⟨xr, ⟨dx, px, rx⟩, ⟨dx, px, rx⟩⟩
        have hsRn : sameRoot f0 (lin w h nb) (lin w h nb) :=
          ⟨yr, ⟨dy, py, ry⟩, ⟨dy, py, ry⟩⟩
        have hcnb : sameRoot f1 (lin w h c) (lin w h nb) := by
          rw [hf1, hjoin]
          exact Or.inr (Or.inl ⟨hsRc, hsRn⟩)
        have hPc : inBounds w h d c ∧ inp c ≠ bg ∧ lin w h c < m + 1 :=
          ⟨hcb, hfgc, by omega⟩
        have hPnb : inBounds w h d nb ∧ inp nb ≠ bg ∧ lin w h nb < m + 1 :=
          ⟨hnbB, hfg, by omega⟩
        have hJ31 : ∀ a b : Vox, inBounds w h d a → inBounds w h d b →
            sameRoot f1 (lin w h a) (lin w h b) →
            a = b ∨ Conn (fun v => inBounds w h d v ∧ inp v ≠ bg ∧
              lin w h v < m + 1) a b := by
          intro a b ha hb hs
          rw [hf1, hjoin] at hs
          have toConn : ∀ {p : Vox}, p = c ∨ Conn (fun v => inBounds w h d v ∧
              inp v ≠ bg ∧ lin w h v < m + 1) p c →
              Conn (fun v => inBounds w h d v ∧ inp v ≠ bg ∧ lin w h v < m + 1) p c := by
            intro p hp
            rcases hp with rfl | hp
            · exact Conn.refl hPc
            · exact hp
          have toConnNb : ∀ {p : Vox}, p = nb ∨ Conn (fun v => inBounds w h d v ∧
              inp v ≠ bg ∧ lin w h v < m + 1) p nb →
              Conn (fun v => inBounds w h d v ∧ inp v ≠ bg ∧ lin w h v < m + 1) p nb := by
            intro p hp
            rcases hp with rfl | hp
            · exact Conn.refl hPnb
            · exact hp
          rcases hs with hs | ⟨h1, h2⟩ | ⟨h1, h2⟩
          · exact hJ3 a b ha hb hs
          · -- a ~ c and nb ~ b
            have hac := toConn (hJ3 a c ha hcb h1)
            have hnbb : Conn (fun v => inBounds w h d v ∧ inp v ≠ bg ∧
                lin w h v < m + 1) nb b := by
              rcases hJ3 b nb hb hnbB (sameRoot_symm h2) with rfl | hcon
              · exact Conn.refl hPnb
              · exact hcon.symm
            exact Or.inr (Conn.trans (Conn.step hac (faceAdj_symm hnbAdj) hPnb) hnbb)
          · -- a ~ nb and c ~ b
            have hanb := toConnNb (hJ3 a nb ha hnbB h1)
            have hcb2 : Conn (fun v => inBounds w h d v ∧ inp v ≠ bg ∧
                lin w h v < m + 1) c b := by
              rcases hJ3 b c hb hcb (sameRoot_symm h2) with rfl | hcon
              · exact Conn.refl hPc
              · exact hcon.symm
            exact Or.inr (Conn.trans (Conn.step hanb hnbAdj hPc) hcb2)
        obtain ⟨hwfF, hJ3F, hmono2, hrest⟩ := ih f1 f
          (fun x hx => hns x (List.mem_cons_of_mem nb hx)) hwf1 hJ31 hok
        refine ⟨hwfF, hJ3F, fun p q hs => hmono2 p q (hmono1 p q hs), ?_⟩
        intro x hx hfgx
        rcases List.mem_cons.mp hx with rfl | hx
        · exact hmono2 _ _ hcnb
        · exact hrest x hx hfgx
    · rw [if_neg hfg] at hok
      obtain ⟨hwfF, hJ3F, hmono, hrest⟩ := ih f0 f
        (fun x hx => hns x (List.mem_cons_of_mem nb hx)) hwf hJ3 hok
      refine ⟨hwfF, hJ3F, hmono, ?_⟩
      intro x hx hfgx
      rcases List.mem_cons.mp hx with rfl | hx
      · exact absurd hfgx (by push_neg at hfg; intro hne; exact hne hfg)
      · exact hrest x hx hfgx

/-- One scan step preserves the invariant. -/
theorem scanInv_step {T : Type} [DecidableEq T] {w h d : Nat} {inp : Vox → T}
    {bg : T} {m : Nat} {fm f : Forest Nat}
    (hinv : ScanInv w h d inp bg m fm) (hm : m < w * h * d)
    (hok : scanVoxel w h inp bg fm (unlin w h m) = Except.ok f) :
    ScanInv w h d inp bg (m + 1) f := by
  obtain ⟨hwf, hI3, hI4⟩ := hinv
  have hcb : inBounds w h d (unlin w h m) := unlin_inBounds hm
  have hlc : lin w h (unlin w h m) = m := lin_unlin w h m
  have hPsub : ∀ v : Vox, (inBounds w h d v ∧ inp v ≠ bg ∧ lin w h v < m) →
      (inBounds w h d v ∧ inp v ≠ bg ∧ lin w h v < m + 1) := by
    intro v hv
    exact ⟨hv.1, hv.2.1, by omega⟩
  rw [scanVoxel] at hok
  by_cases hbg : inp (unlin w h m) = bg
  · rw [if_pos hbg] at hok
    cases hok
    refine ⟨hwf, ?_, ?_⟩
    · intro a b ha hb hs
      exact (hI3 a b ha hb hs).imp id (Conn.mono hPsub)
    · intro a b hPa hPb hadj
      have hla : lin w h a < m := by
        rcases Nat.lt_or_ge (lin w h a) m with hlt | hge
        · exact hlt
        · exfalso
          have he : lin w h a = m := by omega
          have ha' : a = unlin w h m := by rw [← he, unlin_lin hPa.1]
          rw [ha'] at hPa
          exact hPa.2.1 hbg
      have hlb : lin w h b < m := by
        rcases Nat.lt_or_ge (lin w h b) m with hlt | hge
        · exact hlt
        · exfalso
          have he : lin w h b = m := by omega
          have hb' : b = unlin w h m := by rw [← he, unlin_lin hPb.1]
          rw [hb'] at hPb
          exact hPb.2.1 hbg
      exact hI4 a b ⟨hPa.1, hPa.2.1, hla⟩ ⟨hPb.1, hPb.2.1, hlb⟩ hadj
  · rw [if_neg hbg] at hok
    have hns : ∀ nb ∈ neighborsOf (unlin w h m), inBounds w h d nb ∧
        faceAdj nb (unlin w h m) ∧ lin w h nb < m := by
      intro nb hnb
      obtain ⟨h1, h2, h3⟩ := neighborsOf_sound hcb hnb
      rw [hlc] at h3
      exact ⟨h1, h2, h3⟩
    have hJ3m : ∀ a b : Vox, inBounds w h d a → inBounds w h d b →
        sameRoot fm (lin w h a) (lin w h b) →
        a = b ∨ Conn (fun v => inBounds w h d v ∧ inp v ≠ bg ∧
          lin w h v < m + 1) a b := by
      intro a b ha hb hs
      exact (hI3 a b ha hb hs).imp id (Conn.mono hPsub)
    obtain ⟨hwfF, hJ3F, hmono, hedge⟩ :=
      uniteNeighbors_inv hcb hbg hlc (neighborsOf (unlin w h m)) fm f hns hwf hJ3m hok
    refine ⟨hwfF, hJ3F, ?_⟩
    intro a b hPa hPb hadj
    by_cases hea : a = unlin w h m
    · by_cases heb : b = unlin w h m
      · rw [hea, heb] at hadj
        exact absurd hadj (faceAdj_irrefl _)
      · have hlb : lin w h b < m := by
          have hne : lin w h b ≠ m := by
            intro he
            exact heb (by rw [← he, unlin_lin hPb.1])
          omega
        have hmem : b ∈ neighborsOf (unlin w h m) := by
          refine neighborsOf_complete hPb.1 hcb ?_ ?_
          · rw [← hea]
            exact faceAdj_symm hadj
          · rw [hlc]
            exact hlb
        rw [hea]
        exact hedge b hmem hPb.2.1
    · by_cases heb : b = unlin w h m
      · have hla : lin w h a < m := by
          have hne : lin w h a ≠ m := by
            intro he
            exact hea (by rw [← he, unlin_lin hPa.1])
          omega
        have hmem : a ∈ neighborsOf (unlin w h m) := by
          refine neighborsOf_complete hPa.1 hcb ?_ ?_
          · rw [← heb]
            exact hadj
          · rw [hlc]
            exact hla
        rw [heb]
        exact sameRoot_symm (hedge a hmem hPa.2.1)
      · have hla : lin w h a < m := by
          have hne : lin w h a ≠ m := by
            intro he
            exact hea (by rw [← he, unlin_lin hPa.1])
          omega
        have hlb : lin w h b < m := by
          have hne : lin w h b ≠ m := by
            intro he
            exact heb (by rw [← he, unlin_lin hPb.1])
          omega
        exact hmono _ _ (hI4 a b ⟨hPa.1, hPa.2.1, hla⟩ ⟨hPb.1, hPb.2.1, hlb⟩ hadj)

theorem scanFold_singleton {T : Type} [DecidableEq T] (w h : Nat) (inp : Vox → T)
    (bg : T) (f0 : Forest Nat) (c : Vox) :
    scanFold w h inp bg f0 [c] = scanVoxel w h inp bg f0 c := by
  show (match scanVoxel w h inp bg f0 c with
        | Except.error e => Except.error e
        | Except.ok f' => scanFold w h inp bg f' []) = scanVoxel w h inp bg f0 c
  cases hsv : scanVoxel w h inp bg f0 c with
  | error e => rfl
  | ok f' => rfl

/-- The invariant holds after scanning any prefix of the volume. -/
theorem scan_inv {T : Type} [DecidableEq T] (w h d : Nat) (inp : Vox → T) (bg : T) :
    ∀ (m : Nat) (f : Forest Nat), m ≤ w * h * d →
    scanFold w h inp bg (fun _ => zeroNode)
      ((List.range m).map (unlin w h)) = Except.ok f →
    ScanInv w h d inp bg m f := by
  intro m
  induction m with
  | zero =>
    intro f _ hok
    cases hok
    exact scanInv_zero w h d inp bg
  | succ m ih =>
    intro f hm hok
    rw [List.range_succ, List.map_append, scanFold_append] at hok
    cases hpre : scanFold w h inp bg (fun _ => zeroNode)
        ((List.range m).map (unlin w h)) with
    | error e => rw [hpre] at hok; cases hok
    | ok fm =>
      rw [hpre] at hok
      have hok2 : scanFold w h inp bg fm [unlin w h m] = Except.ok f := hok
      rw [scanFold_singleton] at hok2
      exact scanInv_step (ih fm (by omega) hpre) (by omega) hok2

/-- Modelled from the spec (scan loop body missing from src/): after a
successful scan of the whole volume, two in-bounds foreground voxels share
a root iff they are connected by a face-adjacent path of foreground voxels. -/
theorem scan_correct {T : Type} [DecidableEq T] {w h d : Nat} {inp : Vox → T}
    {bg : T} {f : Forest Nat}
    (hok : scanFold w h inp bg (fun _ => zeroNode) (voxList w h d) = Except.ok f) :
    WF (w * h * d) f ∧
    (∀ a b : Vox, fgP w h d inp bg a → fgP w h d inp bg b →
      (sameRoot f (lin w h a) (lin w h b) ↔ Conn (fgP w h d inp bg) a b)) := by
  rw [voxList_eq] at hok
  obtain ⟨hwf, hI3, hI4⟩ := scan_inv w h d inp bg (w * h * d) f le_rfl hok
  have hconn_to : ∀ a b : Vox, Conn (fgP w h d inp bg) a b →
      sameRoot f (lin w h a) (lin w h b) := by
    intro a b hcon
    induction hcon with
    | refl hp =>
      obtain ⟨r, dd, pp, rr, _, _⟩ := wf_grounded hwf _ (lin_lt hp.1)
      exact ⟨r, ⟨dd, pp, rr⟩, ⟨dd, pp, rr⟩⟩
    | @step b' c' hab hadj hc ih =>
      have hb' := hab.ends.2
      have hedge := hI4 b' c' ⟨hb'.1, hb'.2, lin_lt hb'.1⟩
        ⟨hc.1, hc.2, lin_lt hc.1⟩ hadj
      exact sameRoot_trans ih hedge
  refine ⟨hwf, ?_⟩
  intro a b ha hb
  constructor
  · intro hs
    rcases hI3 a b ha.1 hb.1 hs with rfl | hcon
    · exact Conn.refl ha
    · exact hcon.mono (fun v hv => ⟨hv.1, hv.2.1⟩)
  · exact hconn_to a b

/-! ## Statistics bookkeeping lemmas -/

theorem bumpAt_length {T : Type} : ∀ (i : Nat) (l : List (ComponentStatistics T)),
    (bumpAt i l).length = l.length := by
  intro i
  induction i with
  | zero =>
    intro l
    cases l with
    | nil => rfl
    | cons s rest => rfl
  | succ i ih =>
    intro l
    cases l with
    | nil => rfl
    | cons s rest =>
      show (s :: bumpAt i rest).length = (s :: rest).length
      simp [ih rest]

theorem sumPix_bumpAt {T : Type} : ∀ (i : Nat) (l : List (ComponentStatistics T)),
    i < l.length → sumPix (bumpAt i l) = sumPix l + 1 := by
  intro i
  induction i with
  | zero =>
    intro l hl
    cases l with
    | nil => simp at hl
    | cons s rest =>
      show sumPix ({ s with pixelCount_ := s.pixelCount_ + 1 } :: rest) = _
      show s.pixelCount_ + 1 + sumPix rest = s.pixelCount_ + sumPix rest + 1
      omega
  | succ i ih =>
    intro l hl
    cases l with
    | nil => simp at hl
    | cons s rest =>
      show sumPix (s :: bumpAt i rest) = sumPix (s :: rest) + 1
      show s.pixelCount_ + sumPix (bumpAt i rest) = s.pixelCount_ + sumPix rest + 1
      have := ih rest (by simpa using hl)
      omega

theorem mem_bumpAt {T : Type} : ∀ (i : Nat) (l : List (ComponentStatistics T))
    (st : ComponentStatistics T), st ∈ bumpAt i l →
    st ∈ l ∨ ∃ st', st' ∈ l ∧ st = { st' with pixelCount_ := st'.pixelCount_ + 1 } := by
  intro i
  induction i with
  | zero =>
    intro l st hmem
    cases l with
    | nil => cases hmem
    | cons s rest =>
      rcases List.mem_cons.mp hmem with rfl | hmem
      · exact Or.inr ⟨s, List.mem_cons_self s rest, rfl⟩
      · exact Or.inl (List.mem_cons_of_mem s hmem)
  | succ i ih =>
    intro l st hmem
    cases l with
    | nil => cases hmem
    | cons s rest =>
      rcases List.mem_cons.mp hmem with rfl | hmem
      · exact Or.inl (List.mem_cons_self st rest)
      · rcases ih rest st hmem with hmem' | ⟨st', hst', he⟩
        · exact Or.inl (List.mem_cons_of_mem s hmem')
        · exact Or.inr ⟨st', List.mem_cons_of_mem s hst', he⟩

theorem bumpAt_append_last {T : Type} (l : List (ComponentStatistics T))
    (x : ComponentStatistics T) :
    bumpAt l.length (l ++ [x]) =
      l ++ [{ x with pixelCount_ := x.pixelCount_ + 1 }] := by
  induction l with
  | nil => rfl
  | cons s rest ih =>
    show s :: bumpAt rest.length (rest ++ [x]) = s :: _
    rw [ih]
    rfl

theorem sumPix_append {T : Type} (l1 l2 : List (ComponentStatistics T)) :
    sumPix (l1 ++ l2) = sumPix l1 + sumPix l2 := by
  induction l1 with
  | nil => show sumPix l2 = 0 + sumPix l2; omega
  | cons s rest ih =>
    show s.pixelCount_ + sumPix (rest ++ l2) = s.pixelCount_ + sumPix rest + sumPix l2
    rw [ih]
    omega

theorem fg_bg_count {T : Type} [DecidableEq T] (w h : Nat) (inp : Vox → T) (bg : T) :
    ∀ m, fgCount w h inp bg m + bgCount w h inp bg m = m := by
  intro m
  induction m with
  | zero => rfl
  | succ m ih =>
    show fgCount w h inp bg m + (if inp (unlin w h m) = bg then 0 else 1) +
      (bgCount w h inp bg m + (if inp (unlin w h m) = bg then 1 else 0)) = m + 1
    by_cases hb : inp (unlin w h m) = bg
    · rw [if_pos hb, if_pos hb]; omega
    · rw [if_neg hb, if_neg hb]; omega

theorem fgCount_all_bg {T : Type} [DecidableEq T] {w h d : Nat} {inp : Vox → T}
    {bg : T} (hall : ∀ c : Vox, inBounds w h d c → inp c = bg) :
    ∀ m, m ≤ w * h * d → fgCount w h inp bg m = 0 := by
  intro m
  induction m with
  | zero => intro _; rfl
  | succ m ih =>
    intro hm
    have hb : inp (unlin w h m) = bg := hall _ (unlin_inBounds (by omega))
    show fgCount w h inp bg m + (if inp (unlin w h m) = bg then 0 else 1) = 0
    rw [if_pos hb, ih (by omega)]

/-! ## Label fields after the scan pass -/

theorem uniteNeighbors_label {T : Type} [DecidableEq T] {w h : Nat}
    {inp : Vox → T} {bg : T} {c : Vox} :
    ∀ (ns : List Vox) (f0 f : Forest Nat),
    uniteNeighbors w h inp bg c f0 ns = Except.ok f →
    ∀ i, (f i).hasLabel_ = (f0 i).hasLabel_ ∧ (f i).label_ = (f0 i).label_ := by
  intro ns
  induction ns with
  | nil => intro f0 f hok i; cases hok; exact ⟨rfl, rfl⟩
  | cons nb rest ih =>
    intro f0 f hok i
    rw [uniteNeighbors] at hok
    by_cases hfg : inp nb ≠ bg
    · rw [if_pos hfg] at hok
      cases hue : uniteE f0 (lin w h c) (lin w h nb) with
      | error e => rw [hue] at hok; cases hok
      | ok f1 =>
        rw [hue] at hok
        obtain ⟨_, hf1⟩ := uniteE_ok hue
        obtain ⟨ih1, ih2⟩ := ih f1 f hok i
        obtain ⟨hu1, hu2⟩ := unite_label_frame FUEL f0 (lin w h c) (lin w h nb) i
        rw [hf1] at ih1 ih2
        exact ⟨ih1.trans hu1, ih2.trans hu2⟩
    · rw [if_neg hfg] at hok
      exact ih f0 f hok i

theorem scanFold_label {T : Type} [DecidableEq T] {w h : Nat}
    {inp : Vox → T} {bg : T} :
    ∀ (l : List Vox) (f0 f : Forest Nat),
    scanFold w h inp bg f0 l = Except.ok f →
    ∀ i, (f i).hasLabel_ = (f0 i).hasLabel_ ∧ (f i).label_ = (f0 i).label_ := by
  intro l
  induction l with
  | nil => intro f0 f hok i; cases hok; exact ⟨rfl, rfl⟩
  | cons c rest ih =>
    intro f0 f hok i
    rw [scanFold] at hok
    cases hsv : scanVoxel w h inp bg f0 c with
    | error e => rw [hsv] at hok; cases hok
    | ok f1 =>
      rw [hsv] at hok
      obtain ⟨ih1, ih2⟩ := ih f1 f hok i
      rw [scanVoxel] at hsv
      by_cases hbg : inp c = bg
      · rw [if_pos hbg] at hsv
        cases hsv
        exact ⟨ih1, ih2⟩
      · rw [if_neg hbg] at hsv
        obtain ⟨hb1, hb2⟩ := uniteNeighbors_label (neighborsOf c) f0 f1 hsv i
        exact ⟨ih1.trans hb1, ih2.trans hb2⟩

/-- Well-formedness depends only on ranks and parents. -/
theorem wf_congr_rank_parent {U : Type} {n : Nat} {f g : Forest U}
    (hsame : ∀ i, (g i).rank_ = (f i).rank_ ∧ (g i).parent_ = (f i).parent_)
    (hwf : WF n f) : WF n g := by
  intro x hx
  obtain ⟨hb, hcase⟩ := hwf x hx
  obtain ⟨hr, hp⟩ := hsame x
  refine ⟨by rw [hr]; exact hb, ?_⟩
  rcases hcase with hnone | ⟨p, hps, hpn, hplt⟩
  · exact Or.inl (by rw [hp]; exact hnone)
  · exact Or.inr ⟨p, by rw [hp]; exact hps, hpn,
      by rw [hr, (hsame p).1]; exact hplt⟩

theorem resInv_zero {T : Type} [DecidableEq T] (w h d : Nat) (inp : Vox → T)
    (bg : T) (bgl : Nat) (out0 : Vox → Nat) {fscan : Forest Nat}
    (hwf : WF (w * h * d) fscan)
    (hlab : ∀ i, (fscan i).hasLabel_ = false) :
    ResInv w h d inp bg bgl fscan 0 ⟨fscan, out0, []⟩ := by
  refine ⟨hwf, fun j r => Iff.rfl, ?_, ?_, ?_, rfl, ?_⟩
  · intro i hl
    rw [show (({ forest := fscan, out := out0, stats := [] } :
        ResState T).forest i).hasLabel_ = (fscan i).hasLabel_ from rfl, hlab i] at hl
    cases hl
  · intro i j hl _ _
    rw [show (({ forest := fscan, out := out0, stats := [] } :
        ResState T).forest i).hasLabel_ = (fscan i).hasLabel_ from rfl, hlab i] at hl
    cases hl
  · intro i h0
    omega
  · intro st hst
    cases hst
/-- Writing a cell and reading it back gives the written label. -/
theorem writeOut_self (out : Vox → Nat) (c : Vox) (lab : Nat) :
    writeOut out c lab c = lab := by
  show (if c = c then lab else out c) = lab
  rw [if_pos rfl]

/-- Writing a cell leaves every other cell unchanged. -/
theorem writeOut_other (out : Vox → Nat) (c : Vox) (lab : Nat) {c' : Vox}
    (h : c' ≠ c) : writeOut out c lab c' = out c' := by
  show (if c' = c then lab else out c') = out c'
  rw [if_neg h]

/-- One resolution step preserves the invariant.  Modelled from the spec
(resolution pass body missing from src/). -/
theorem resInv_step {T : Type} [DecidableEq T] {w h d : Nat} {inp : Vox → T}
    {bg : T} {bgl : Nat} {fscan : Forest Nat} {m : Nat} {s : ResState T}
    (hinv : ResInv w h d inp bg bgl fscan m s) (hm : m < w * h * d) :
    ResInv w h d inp bg bgl fscan (m + 1)
      (resolveVoxel w h inp bg bgl s (unlin w h m)) := by
  obtain ⟨hwf, hR0, hR2a, hR2b, hR3, hR4, hR5⟩ := hinv
  have hlc : lin w h (unlin w h m) = m := lin_unlin w h m
  have hinj : ∀ i, i < w * h * d → unlin w h i = unlin w h m → i = m := by
    intro i _ he
    have h2 : lin w h (unlin w h i) = lin w h (unlin w h m) := by rw [he]
    rw [lin_unlin, lin_unlin] at h2
    exact h2
  simp only [resolveVoxel, hlc]
  by_cases hbg : inp (unlin w h m) = bg
  · rw [if_pos hbg]
    have hfge : fgCount w h inp bg (m + 1) = fgCount w h inp bg m := by
      show fgCount w h inp bg m + (if inp (unlin w h m) = bg then 0 else 1) = _
      rw [if_pos hbg]
      omega
    simp only [ResInv]
    refine ⟨hwf, hR0, hR2a, hR2b, ?_, ?_, hR5⟩
    · intro i hi hin
      by_cases him : i = m
      · subst him
        exact ⟨fun _ => writeOut_self s.out (unlin w h i) bgl,
          fun hfg => absurd hbg hfg⟩
      · have hi' : i < m := by omega
        obtain ⟨hb1, hb2⟩ := hR3 i hi' hin
        have hne : unlin w h i ≠ unlin w h m := fun he => him (hinj i hin he)
        refine ⟨fun hbi => ?_, fun hfg => ?_⟩
        · rw [writeOut_other s.out (unlin w h m) bgl hne]
          exact hb1 hbi
        · obtain ⟨r', hr1, hr2, hr3⟩ := hb2 hfg
          refine ⟨r', hr1, hr2, ?_⟩
          rw [writeOut_other s.out (unlin w h m) bgl hne]
          exact hr3
    · rw [hR4, hfge]
  · rw [if_neg hbg]
    have hfge : fgCount w h inp bg (m + 1) = fgCount w h inp bg m + 1 := by
      show fgCount w h inp bg m + (if inp (unlin w h m) = bg then 0 else 1) = _
      rw [if_neg hbg]
    obtain ⟨r, dd, pp, pr, hrn, hdd⟩ := wf_grounded hwf m hm
    have hdd' : dd ≤ FUEL := by
      show dd ≤ RANK_MAX + 1
      omega
    obtain ⟨hf2, hcomp, hframe⟩ := find_spec pp pr hdd'
    have hclass := find_sameRoot pp pr hdd'
    have hwff : WF (w * h * d) (find FUEL s.forest m).1 := by
      refine find_wf hwf hm ?_
      show RANK_MAX ≤ RANK_MAX + 1
      omega
    have hfrm := find_frame FUEL s.forest m
    have hrootfr : isRoot (find FUEL s.forest m).1 r := find_preserves_root pr
    have hclassScan : ∀ j r', RootedAt (find FUEL s.forest m).1 j r' ↔
        RootedAt fscan j r' := fun j r' => (hclass j r').trans (hR0 j r')
    have hRm : RootedAt fscan m r := (hR0 m r).mp ⟨dd, pp, pr⟩
    rw [hf2]
    by_cases hlab : ((find FUEL s.forest m).1 r).hasLabel_ = true
    · rw [if_pos hlab]
      have hlabS : (s.forest r).hasLabel_ = true := by
        rw [← (hfrm r).2.1]
        exact hlab
      obtain ⟨hrootS, hge1, hlen⟩ := hR2a r hlabS
      have hlabeq : ((find FUEL s.forest m).1 r).label_ = (s.forest r).label_ :=
        (hfrm r).2.2
      have hidx : ((find FUEL s.forest m).1 r).label_ - 1 < s.stats.length := by
        rw [hlabeq]
        omega
      simp only [ResInv]
      refine ⟨hwff, hclassScan, ?_, ?_, ?_, ?_, ?_⟩
      · intro i hl
        have hlS : (s.forest i).hasLabel_ = true := by
          rw [← (hfrm i).2.1]
          exact hl
        obtain ⟨hr1, hr2, hr3⟩ := hR2a i hlS
        refine ⟨find_preserves_root hr1, ?_, ?_⟩
        · rw [(hfrm i).2.2]
          exact hr2
        · rw [bumpAt_length, (hfrm i).2.2]
          exact hr3
      · intro i j hi hj he
        rw [(hfrm i).2.2, (hfrm j).2.2] at he
        exact hR2b i j (by rw [← (hfrm i).2.1]; exact hi)
          (by rw [← (hfrm j).2.1]; exact hj) he
      · intro i hi hin
        by_cases him : i = m
        · subst him
          refine ⟨fun hbi => absurd hbi hbg, fun _ => ?_⟩
          exact ⟨r, hRm, hlab,
            writeOut_self s.out (unlin w h i) ((find FUEL s.forest i).1 r).label_⟩
        · have hi' : i < m := by omega
          obtain ⟨hb1, hb2⟩ := hR3 i hi' hin
          have hne : unlin w h i ≠ unlin w h m := fun he => him (hinj i hin he)
          refine ⟨fun hbi => ?_, fun hfg => ?_⟩
          · rw [writeOut_other s.out (unlin w h m)
              ((find FUEL s.forest m).1 r).label_ hne]
            exact hb1 hbi
          · obtain ⟨r', hr1, hr2, hr3⟩ := hb2 hfg
            refine ⟨r', hr1, ?_, ?_⟩
            · rw [(hfrm r').2.1]
              exact hr2
            · rw [writeOut_other s.out (unlin w h m)
                ((find FUEL s.forest m).1 r).label_ hne, (hfrm r').2.2]
              exact hr3
      · rw [sumPix_bumpAt _ _ hidx, hR4, hfge]
      · intro st hst
        rcases mem_bumpAt _ _ st hst with hmem | ⟨st', hst', he⟩
        · exact hR5 st hmem
        · rw [he]
          show 1 ≤ st'.pixelCount_ + 1
          omega
    · rw [if_neg hlab]
      have hlabSF : (s.forest r).hasLabel_ = false := by
        cases hcl : (s.forest r).hasLabel_
        · rfl
        · rw [← (hfrm r).2.1] at hcl
          exact absurd hcl hlab
      have hstats : bumpAt s.stats.length
          (s.stats ++ [{ pixelCount_ := 0, inputLabel_ := inp (unlin w h m) }]) =
          s.stats ++ [{ pixelCount_ := 1, inputLabel_ := inp (unlin w h m) }] := by
        rw [bumpAt_append_last]
      have hpar : ∀ i, ((upd (find FUEL s.forest m).1 r
          { (find FUEL s.forest m).1 r with hasLabel_ := true, label_ := s.stats.length + 1 }) i).parent_ =
          (((find FUEL s.forest m).1) i).parent_ := by
        intro i
        by_cases hir : i = r
        · subst hir
          rw [upd_self]
        · rw [upd_other _ _ hir]
      have hrank : ∀ i, ((upd (find FUEL s.forest m).1 r
          { (find FUEL s.forest m).1 r with hasLabel_ := true, label_ := s.stats.length + 1 }) i).rank_ =
          (((find FUEL s.forest m).1) i).rank_ := by
        intro i
        by_cases hir : i = r
        · subst hir
          rw [upd_self]
        · rw [upd_other _ _ hir]
      have hlabG : ∀ i, i ≠ r →
          (upd (find FUEL s.forest m).1 r
            { (find FUEL s.forest m).1 r with hasLabel_ := true, label_ := s.stats.length + 1 }) i = (find FUEL s.forest m).1 i := by
        intro i hir
        rw [upd_other _ _ hir]
      simp only [ResInv]
      refine ⟨?_, ?_, ?_, ?_, ?_, ?_, ?_⟩
      · exact wf_congr_rank_parent (fun i => ⟨hrank i, hpar i⟩) hwff
      · intro j r'
        exact Iff.trans
          ⟨rootedAt_congr (fun i => (hpar i).symm), rootedAt_congr hpar⟩
          (hclassScan j r')
      · intro i hl
        by_cases hir : i = r
        · subst hir
          refine ⟨?_, ?_, ?_⟩
          · rw [isRoot, hpar i]
            exact hrootfr
          · rw [upd_self]
            show 1 ≤ s.stats.length + 1
            omega
          · rw [upd_self, bumpAt_length, List.length_append]
            show s.stats.length + 1 ≤ s.stats.length + 1
            omega
        · rw [hlabG i hir] at hl
          have hlS : (s.forest i).hasLabel_ = true := by
            rw [← (hfrm i).2.1]
            exact hl
          obtain ⟨hr1, hr2, hr3⟩ := hR2a i hlS
          refine ⟨?_, ?_, ?_⟩
          · rw [isRoot, hpar i]
            exact find_preserves_root hr1
          · rw [hlabG i hir, (hfrm i).2.2]
            exact hr2
          · rw [hlabG i hir, (hfrm i).2.2, bumpAt_length, List.length_append]
            have := hr3
            omega
      · intro i j hi hj he
        by_cases hir : i = r
        · by_cases hjr : j = r
          · rw [hir, hjr]
          · subst hir
            rw [upd_self] at he
            rw [hlabG j hjr] at hj he
            have hjS : (s.forest j).hasLabel_ = true := by
              rw [← (hfrm j).2.1]
              exact hj
            obtain ⟨_, _, hj3⟩ := hR2a j hjS
            rw [(hfrm j).2.2] at he
            have he' : s.stats.length + 1 = (s.forest j).label_ := he
            omega
        · by_cases hjr : j = r
          · subst hjr
            rw [upd_self] at he
            rw [hlabG i hir] at hi he
            have hiS : (s.forest i).hasLabel_ = true := by
              rw [← (hfrm i).2.1]
              exact hi
            obtain ⟨_, _, hi3⟩ := hR2a i hiS
            rw [(hfrm i).2.2] at he
            have he' : (s.forest i).label_ = s.stats.length + 1 := he
            omega
          · rw [hlabG i hir] at hi he
            rw [hlabG j hjr] at hj he
            rw [(hfrm i).2.2, (hfrm j).2.2] at he
            exact hR2b i j (by rw [← (hfrm i).2.1]; exact hi)
              (by rw [← (hfrm j).2.1]; exact hj) he
      · intro i hi hin
        by_cases him : i = m
        · subst him
          refine ⟨fun hbi => absurd hbi hbg, fun _ => ?_⟩
          refine ⟨r, hRm, ?_, ?_⟩
          · rw [upd_self]
          · rw [writeOut_self s.out (unlin w h i) (s.stats.length + 1), upd_self]
        · have hi' : i < m := by omega
          obtain ⟨hb1, hb2⟩ := hR3 i hi' hin
          have hne : unlin w h i ≠ unlin w h m := fun he => him (hinj i hin he)
          refine ⟨fun hbi => ?_, fun hfg => ?_⟩
          · rw [writeOut_other s.out (unlin w h m) (s.stats.length + 1) hne]
            exact hb1 hbi
          · obtain ⟨r', hr1, hr2, hr3⟩ := hb2 hfg
            have hr'r : r' ≠ r := by
              intro he
              rw [he, hlabSF] at hr2
              cases hr2
            refine ⟨r', hr1, ?_, ?_⟩
            · rw [hlabG r' hr'r, (hfrm r').2.1]
              exact hr2
            · rw [writeOut_other s.out (unlin w h m) (s.stats.length + 1) hne,
                hlabG r' hr'r, (hfrm r').2.2]
              exact hr3
      · rw [hstats, sumPix_append, hR4, hfge]
        show fgCount w h inp bg m + (1 + 0) = fgCount w h inp bg m + 1
        omega
      · rw [hstats]
        intro st hst
        rcases List.mem_append.mp hst with h1 | h1
        · exact hR5 st h1
        · rw [List.mem_singleton.mp h1]

/-- The invariant holds after resolving any prefix of the volume.  Modelled
from the spec (resolution pass body missing from src/). -/
theorem resolve_inv {T : Type} [DecidableEq T] (w h d : Nat) (inp : Vox → T)
    (bg : T) (bgl : Nat) (out0 : Vox → Nat) {fscan : Forest Nat}
    (hwf : WF (w * h * d) fscan)
    (hlab : ∀ i, (fscan i).hasLabel_ = false) :
    ∀ (m : Nat), m ≤ w * h * d →
    ResInv w h d inp bg bgl fscan m
      (resolveFold w h inp bg bgl ⟨fscan, out0, []⟩
        ((List.range m).map (unlin w h))) := by
  intro m
  induction m with
  | zero =>
    intro _
    exact resInv_zero w h d inp bg bgl out0 hwf hlab
  | succ m ih =>
    intro hm
    rw [List.range_succ, List.map_append, resolveFold_append]
    exact resInv_step (ih (by omega)) (by omega)

/-- A successful scan determines the shape of the whole call: the result is
`ok` with the resolution fold's output buffer and statistics. -/
theorem findCC_ok_eq {T : Type} [DecidableEq T] {w h d : Nat} {inp : Vox → T}
    {bg : T} {fscan : Forest Nat} (out0 : Vox → Nat) (bgl : Nat)
    (hscan : scanFold w h inp bg (fun _ => zeroNode) (voxList w h d) =
      Except.ok fscan) :
    findConnectedComponents3d w h d inp bg out0 bgl =
      Except.ok ((resolveFold w h inp bg bgl ⟨fscan, out0, []⟩ (voxList w h d)).out,
        (resolveFold w h inp bg bgl ⟨fscan, out0, []⟩ (voxList w h d)).stats) := by
  simp only [findConnectedComponents3d]
  rw [hscan]

/-- A failing scan aborts the whole call with its error. -/
theorem findCC_err_eq {T : Type} [DecidableEq T] {w h d : Nat} {inp : Vox → T}
    {bg : T} {out0 : Vox → Nat} {bgl : Nat} {e : String}
    (hscan : scanFold w h inp bg (fun _ => zeroNode) (voxList w h d) =
      Except.error e) :
    findConnectedComponents3d w h d inp bg out0 bgl = Except.error e := by
  simp only [findConnectedComponents3d]
  rw [hscan]

/-- After a successful scan, the full resolution fold satisfies the
resolution invariant at `m = w*h*d`. -/
theorem resolvedInv_of_scan {T : Type} [DecidableEq T] {w h d : Nat}
    {inp : Vox → T} {bg : T} {fscan : Forest Nat} (out0 : Vox → Nat) (bgl : Nat)
    (hscan : scanFold w h inp bg (fun _ => zeroNode) (voxList w h d) =
      Except.ok fscan) :
    ResInv w h d inp bg bgl fscan (w * h * d)
      (resolveFold w h inp bg bgl ⟨fscan, out0, []⟩ (voxList w h d)) := by
  have hwf := (scan_correct hscan).1
  have hlab : ∀ i, (fscan i).hasLabel_ = false := by
    intro i
    have hx := (scanFold_label (voxList w h d) (fun _ => zeroNode) fscan hscan i).1
    rw [hx]
    decide
  rw [voxList_eq]
  exact resolve_inv w h d inp bg bgl out0 hwf hlab (w * h * d) le_rfl

/-- A statistics list of positive counts with zero total is empty. -/
theorem sumPix_zero_nil {T : Type} (l : List (ComponentStatistics T))
    (hpos : ∀ st ∈ l, 1 ≤ st.pixelCount_) (hz : sumPix l = 0) : l = [] := by
  cases l with
  | nil => rfl
  | cons st rest =>
    have h1 := hpos st (List.mem_cons_self st rest)
    have h2 : st.pixelCount_ + sumPix rest = 0 := hz
    exact absurd h2 (by omega)

/-- C1: for a completed call, two in-bounds foreground voxels receive the
same output label iff they are connected by a path of face-adjacent
foreground voxels (spec-modelled: the scan and resolution bodies are
missing from src/). -/
theorem claim_C1 {T : Type} [DecidableEq T] (w h d : Nat) (inp : Vox → T)
    (bg : T) (out0 : Vox → Nat) (bgl : Nat)
    (hok : ccOk (findConnectedComponents3d w h d inp bg out0 bgl) = true)
    (a b : Vox) (ha : fgP w h d inp bg a) (hb : fgP w h d inp bg b) :
    Conn (fgP w h d inp bg) a b ↔
      ccOut (findConnectedComponents3d w h d inp bg out0 bgl) a =
      ccOut (findConnectedComponents3d w h d inp bg out0 bgl) b := by
  cases hscan : scanFold w h inp bg (fun _ => zeroNode) (voxList w h d) with
  | error e =>
    rw [findCC_err_eq hscan] at hok
    exact Bool.noConfusion hok
  | ok fscan =>
    have hfeq := findCC_ok_eq out0 bgl hscan
    obtain ⟨hwf, hiff⟩ := scan_correct hscan
    obtain ⟨_, _, _, hInj, hOut, _, _⟩ := resolvedInv_of_scan out0 bgl hscan
    have hia : lin w h a < w * h * d := lin_lt ha.1
    have hib : lin w h b < w * h * d := lin_lt hb.1
    obtain ⟨_, hfga⟩ := hOut (lin w h a) hia hia
    rw [unlin_lin ha.1] at hfga
    obtain ⟨ra, hra, hlra, houta⟩ := hfga ha.2
    obtain ⟨_, hfgb⟩ := hOut (lin w h b) hib hib
    rw [unlin_lin hb.1] at hfgb
    obtain ⟨rb, hrb, hlrb, houtb⟩ := hfgb hb.2
    rw [hfeq]
    simp only [ccOut]
    constructor
    · intro hconn
      obtain ⟨r0, h1, h2⟩ := (hiff a b ha hb).mpr hconn
      have e1 : r0 = ra := rootedAt_unique h1 hra
      have e2 : r0 = rb := rootedAt_unique h2 hrb
      rw [houta, houtb, ← e1, ← e2]
    · intro heq
      rw [houta, houtb] at heq
      have hradrb : ra = rb := hInj ra rb hlra hlrb heq
      apply (hiff a b ha hb).mp
      exact ⟨ra, hra, by rw [hradrb]; exact hrb⟩

/-- Witness for C1 on a concrete volume: a 2x1x1 all-foreground volume,
whose two voxels are face-adjacent and indeed receive the same label. -/
theorem claim_C1_witness :
    ccOk (findConnectedComponents3d 2 1 1 (fun _ : Vox => true) false
      (fun _ => 9) 0) = true ∧
    ccOut (findConnectedComponents3d 2 1 1 (fun _ : Vox => true) false
      (fun _ => 9) 0) (0, 0, 0) =
    ccOut (findConnectedComponents3d 2 1 1 (fun _ : Vox => true) false
      (fun _ => 9) 0) (1, 0, 0) := by
  have hok : ccOk (findConnectedComponents3d 2 1 1 (fun _ : Vox => true) false
      (fun _ => 9) 0) = true := by decide
  have ha : fgP 2 1 1 (fun _ : Vox => true) false (0, 0, 0) := by decide
  have hb : fgP 2 1 1 (fun _ : Vox => true) false (1, 0, 0) := by decide
  refine ⟨hok, (claim_C1 2 1 1 (fun _ => true) false (fun _ => 9) 0 hok
    (0, 0, 0) (1, 0, 0) ha hb).mp ?_⟩
  exact Conn.step (Conn.refl ha) (by decide) hb

/-- C7: for a completed call, the pixel counts of the returned records and
the background-voxel count partition the volume, and an entirely-background
volume yields an empty statistics list (spec-modelled: the scan and
resolution bodies are missing from src/). -/
theorem claim_C7 {T : Type} [DecidableEq T] (w h d : Nat) (inp : Vox → T)
    (bg : T) (out0 : Vox → Nat) (bgl : Nat)
    (hok : ccOk (findConnectedComponents3d w h d inp bg out0 bgl) = true) :
    sumPix (ccStats (findConnectedComponents3d w h d inp bg out0 bgl)) +
      bgCount w h inp bg (w * h * d) = w * h * d ∧
    ((∀ c : Vox, inBounds w h d c → inp c = bg) →
      ccStats (findConnectedComponents3d w h d inp bg out0 bgl) = []) := by
  cases hscan : scanFold w h inp bg (fun _ => zeroNode) (voxList w h d) with
  | error e =>
    rw [findCC_err_eq hscan] at hok
    exact Bool.noConfusion hok
  | ok fscan =>
    have hfeq := findCC_ok_eq out0 bgl hscan
    obtain ⟨_, _, _, _, _, hSum, hPos⟩ := resolvedInv_of_scan out0 bgl hscan
    rw [hfeq]
    simp only [ccStats]
    constructor
    · rw [hSum]
      exact fg_bg_count w h inp bg (w * h * d)
    · intro hall
      have h0 : fgCount w h inp bg (w * h * d) = 0 :=
        fgCount_all_bg hall (w * h * d) le_rfl
      refine sumPix_zero_nil _ hPos ?_
      rw [hSum, h0]

/-- Witness for C7 on a concrete volume: a 1x1x1 all-background volume,
where the partition reads 0 + 1 = 1 and the statistics list is empty. -/
theorem claim_C7_witness :
    ccOk (findConnectedComponents3d 1 1 1 (fun _ : Vox => false) false
      (fun _ => 3) 0) = true ∧
    sumPix (ccStats (findConnectedComponents3d 1 1 1 (fun _ : Vox => false) false
      (fun _ => 3) 0)) + bgCount 1 1 (fun _ : Vox => false) false (1 * 1 * 1) =
      1 * 1 * 1 ∧
    ccStats (findConnectedComponents3d 1 1 1 (fun _ : Vox => false) false
      (fun _ => 3) 0) = [] := by
  have hok : ccOk (findConnectedComponents3d 1 1 1 (fun _ : Vox => false) false
      (fun _ => 3) 0) = true := by decide
  obtain ⟨h1, h2⟩ := claim_C7 1 1 1 (fun _ : Vox => false) false (fun _ => 3) 0 hok
  exact ⟨hok, h1, h2 (fun c _ => rfl)⟩

end createdataset
